import Mathlib

/-!
Verification of the remark-lint rule corpus: a shallow embedding of the
mdast node model, the position helpers, the traversal used by the rules,
and the individual lint rules, together with theorems about their
diagnostic behaviour.

Sources embedded (JavaScript):
* `packages/remark-lint-rule-style/index.js` (also the copy shipped in the
  docs bundle)
* `packages/remark-lint-blockquote-indentation/index.js`
* `packages/remark-lint-no-duplicate-definitions/index.js`
* `packages/remark-lint-no-duplicate-headings/index.js`
* `packages/remark-lint-no-duplicate-headings-in-section/index.js`
* `packages/remark-lint-no-heading-punctuation/index.js`
* `packages/remark-lint-no-missing-blank-lines/index.js`
* `packages/remark-lint-final-definition/index.js`
* the `final-newline` rule

The helper packages (`unist-util-position`, `unist-util-visit`,
`unist-util-stringify-position`, `unist-util-generated`,
`mdast-util-to-string`, `pluralize`) are external collaborators of the
repository; they are modelled from the contracts the spec gives for them
(position model §4.1, visitation engine §4.2) which coincide with their
published behaviour.
-/

/-- Point of the unist position model: 1-based `line` and `column`, optional
0-based `offset`. -/
structure Point where
  line : Nat
  column : Nat
  offset : Option Nat := none
deriving DecidableEq, Repr

/-- Position of the unist position model: a start point and an end point.
The `end` field of the source is called `stop` here because `end` is a Lean
keyword. -/
structure Position where
  start : Point
  stop : Point
deriving DecidableEq, Repr

/-- Data carried by one mdast node apart from its children: the `type` tag,
the optional source `position`, and the type-specific fields used by the
embedded rules (`identifier` of definitions, `depth` of headings, `value`
of literal nodes).  A `value` of `none` models absence of the field. -/
structure NodeData where
  type : String
  position : Option Position := none
  identifier : String := ""
  depth : Nat := 0
  value : Option String := none
deriving DecidableEq, Repr

mutual
/-- An mdast node: its data and its ordered children. -/
inductive Node where
  | mk (data : NodeData) (children : NodeList)
deriving Repr

/-- A list of mdast nodes, as a mutual inductive so that traversals are
structurally recursive. -/
inductive NodeList where
  | nil
  | cons (head : Node) (tail : NodeList)
deriving Repr
end

/-- Build a `NodeList` from a Lean list. -/
def nl : List Node → NodeList
  | [] => .nil
  | n :: rest => .cons n (nl rest)

/-- Data of a node. -/
def Node.data : Node → NodeData
  | .mk d _ => d

/-- Children of a node. -/
def Node.children : Node → NodeList
  | .mk _ cs => cs

/-- Type tag of a node. -/
def Node.type (n : Node) : String := n.data.type

/-- Position field of a node. -/
def Node.position (n : Node) : Option Position := n.data.position

/-- Identifier field of a node (mdast `definition` / `footnoteDefinition`). -/
def Node.identifier (n : Node) : String := n.data.identifier

/-- Depth field of a node (mdast `heading`). -/
def Node.depth (n : Node) : Nat := n.data.depth

/-- Value field of a node (mdast literals such as `text` and `html`). -/
def Node.value (n : Node) : Option String := n.data.value

/-- Element of a `NodeList` at an index, `none` past the end: models the
JavaScript array access `parent.children[index]`. -/
def NodeList.get? : NodeList → Nat → Option Node
  | .nil, _ => none
  | .cons h _, 0 => some h
  | .cons _ t, i + 1 => t.get? i

/-- Place a diagnostic can carry: nothing (file-level message), a single
point, or a start/end span. -/
inductive Place where
  | none
  | point (p : Point)
  | span (p : Position)
deriving DecidableEq, Repr

/-- Diagnostic message: the reason string and the place it points at. -/
structure VMessage where
  reason : String
  place : Place
deriving DecidableEq, Repr

/-- Modelled from the spec (§4.1 position model, the `unist-util-position`
contract): a point resolves only when both its line and column are
positive. -/
def resolvePoint (p : Point) : Option Point :=
  if 0 < p.line ∧ 0 < p.column then some p else none

/-- Modelled from the spec (§4.1): `pointStart` resolves the start point of
a node, `none` when the node has no position or the point is not
resolvable. -/
def pointStart (n : Node) : Option Point :=
  match n.position with
  | some pos => resolvePoint pos.start
  | none => none

/-- Modelled from the spec (§4.1): `pointEnd` resolves the end point of a
node. -/
def pointEnd (n : Node) : Option Point :=
  match n.position with
  | some pos => resolvePoint pos.stop
  | none => none

/-- Modelled from the spec (§4.1): `position` resolves a node to a full
start/end range, `none` unless both points resolve. -/
def positionOf (n : Node) : Option Position :=
  match pointStart n, pointEnd n with
  | some s, some e => some ⟨s, e⟩
  | _, _ => none

/-- Modelled from the spec (§3, `unist-util-generated`): a node is
generated when it has no resolvable source position. -/
def generated (n : Node) : Bool := (positionOf n).isNone

/-- Place stored for a message that is reported against a node: the node's
resolved position, or no place when the node has none. -/
def nodePlace (n : Node) : Place :=
  match positionOf n with
  | some p => .span p
  | none => .none

/-- Modelled from the spec (§4.1, `unist-util-stringify-position`): render a
point as `line:column`. -/
def stringifyPoint (p : Point) : String :=
  toString p.line ++ ":" ++ toString p.column

/-- Modelled from the spec (§4.1): stringify an optional point, the empty
string when there is none. -/
def stringifyPosition : Option Point → String
  | some p => stringifyPoint p
  | none => ""

/-- Modelled from the spec (§4.5 case folding, JavaScript
`String.prototype.toUpperCase`): upper-case every character. -/
def strToUpper (s : String) : String :=
  String.mk (s.toList.map Char.toUpper)

mutual
/-- Modelled from the spec (§4.5, `mdast-util-to-string`): flattened text of
a node — its `value` when present, otherwise the concatenation of the
flattened text of its children. -/
def mdastToString : Node → String
  | .mk d cs =>
    match d.value with
    | some v => v
    | none => mdastToStringList cs

/-- Flattened text of a node list. -/
def mdastToStringList : NodeList → String
  | .nil => ""
  | .cons h t => mdastToString h ++ mdastToStringList t
end

mutual
/-- Modelled from the spec (§4.2 visitation engine): the pre-order visit
sequence of a tree — each node before its children, children in document
order. -/
def preorderN : Node → List Node
  | .mk d cs => .mk d cs :: preorderL cs

/-- Pre-order visit sequence of a node list. -/
def preorderL : NodeList → List Node
  | .nil => []
  | .cons h t => preorderN h ++ preorderL t
end

mutual
/-- Modelled from the spec (§4.2): the reverse-mode visit sequence — each
node still before its own children, but children visited in reverse
order. -/
def revOrderN : Node → List Node
  | .mk d cs => .mk d cs :: revOrderL cs

/-- Reverse-mode visit sequence of a node list. -/
def revOrderL : NodeList → List Node
  | .nil => []
  | .cons h t => revOrderL t ++ revOrderN h
end

mutual
/-- Modelled from the spec (§4.2): the pre-order visit sequence together
with the `(index, parent)` context handed to visitors; `none` for the
root. -/
def preorderCtxN (n : Node) (ctx : Option (Nat × Node)) :
    List (Node × Option (Nat × Node)) :=
  match n with
  | .mk d cs => (.mk d cs, ctx) :: preorderCtxL (.mk d cs) 0 cs

/-- Context-carrying pre-order visit sequence of the children of
`parent`, the first child having index `i`. -/
def preorderCtxL (parent : Node) (i : Nat) :
    NodeList → List (Node × Option (Nat × Node))
  | .nil => []
  | .cons h t => preorderCtxN h (some (i, parent)) ++ preorderCtxL parent (i + 1) t
end

/-- JavaScript `options || fallback` on an optional string: `null`,
`undefined` and the empty string are falsy. -/
def jsOrString (options : Option String) (fallback : String) : String :=
  match options with
  | none => fallback
  | some s => if s = "" then fallback else s

/-- The `final-newline` rule: warn when the source text does not end with a
line feed.  Mirrors the rule body: `last = value.length - 1`, message when
`last > -1` and the character at `last` is not a newline; the message
carries no place. -/
def remarkLintFinalNewline (value : String) : List VMessage :=
  if 0 < value.length ∧ value.toList.get? (value.length - 1) ≠ some '\n' then
    [⟨"Missing newline character at end of file", .none⟩]
  else
    []

/-- JavaScript `value.slice(a, b)` on character offsets. -/
def strSlice (value : String) (a b : Nat) : String :=
  String.mk ((value.toList.drop a).take (b - a))

/-- Message emitted by the `rule-style` rule for a differing thematic
break. -/
def ruleStyleMsg (opt : String) (n : Node) : VMessage :=
  ⟨"Rules should use `" ++ opt ++ "`", nodePlace n⟩

/-- Visitor body of `rule-style` for one thematic break: when the node has
resolvable start and end points with numeric offsets, slice the marker text
out of the source; adopt it when the preferred style is still
`'consistent'`, otherwise report when it differs from the preferred
style. -/
def ruleStyleCheck (value : String) (opt : String) (node : Node) :
    String × List VMessage :=
  match pointStart node, pointEnd node with
  | some s, some e =>
    match s.offset, e.offset with
    | some so, some eo =>
      let rule := strSlice value so eo
      if opt = "consistent" then (rule, [])
      else if rule ≠ opt then (opt, [ruleStyleMsg opt node])
      else (opt, [])
    | _, _ => (opt, [])
  | _, _ => (opt, [])

/-- Traversal of `rule-style`: visit every `thematicBreak` node in document
order, threading the preferred style. -/
def ruleStyleVisit (value : String) : String → List Node → String × List VMessage
  | opt, [] => (opt, [])
  | opt, n :: rest =>
    if n.type = "thematicBreak" then
      let step := ruleStyleCheck value opt n
      let tail := ruleStyleVisit value step.1 rest
      (tail.1, step.2 ++ tail.2)
    else ruleStyleVisit value opt rest

/-- Character outside the recognized thematic-break marker set, the test
`/[^-_* ]/` of the source. -/
def ruleStyleBadChar (c : Char) : Bool :=
  !(c == '-' || c == '_' || c == '*' || c == ' ')

/-- The `rule-style` rule: a configured style other than `'consistent'`
containing a character outside the marker set is a fatal configuration
failure (`file.fail`) raised before the traversal; otherwise the tree is
visited in pre-order. -/
def remarkLintRuleStyle (tree : Node) (value : String) (options : Option String) :
    Except String (List VMessage) :=
  let option := jsOrString options "consistent"
  if option ≠ "consistent" ∧ option.toList.any ruleStyleBadChar then
    .error "Incorrect preferred rule style: provide a correct markdown rule or `'consistent'`"
  else
    .ok (ruleStyleVisit value option (preorderN tree)).2

/-- Observation the `rule-style` rule extracts from one node: the source
slice of a thematic break with resolvable offsets, paired with the node. -/
def tbObs (value : String) (n : Node) : Option (String × Node) :=
  if n.type = "thematicBreak" then
    match pointStart n, pointEnd n with
    | some s, some e =>
      match s.offset, e.offset with
      | some so, some eo => some (strSlice value so eo, n)
      | _, _ => none
    | _, _ => none
  else none

/-- Configuration of `blockquote-indentation`: a preferred indent or the
sentinel `'consistent'`. -/
inductive IndentOption where
  | num (n : Int)
  | consistent
deriving DecidableEq, Repr

/-- JavaScript `options || 'consistent'` for `blockquote-indentation`:
`null`, `undefined` and the falsy number `0` all become `'consistent'`. -/
def indentOptionOf : Option IndentOption → IndentOption
  | none => .consistent
  | some (.num n) => if n = 0 then .consistent else .num n
  | some .consistent => .consistent

/-- Modelled from the spec: behaviour of the external `pluralize` package
on a regular word. -/
def pluralizeWord (w : String) (n : Nat) : String :=
  if n = 1 then w else w ++ "s"

/-- Message emitted by `blockquote-indentation`: the direction and the
absolute number of spaces by which the observed indent misses the
preferred one, placed at the head point. -/
def blockquoteMsg (diff : Int) (head : Point) : VMessage :=
  ⟨(if 0 < diff then "Add" else "Remove") ++ " " ++ toString diff.natAbs ++ " " ++
      pluralizeWord "space" diff.natAbs ++ " between block quote and content",
    .point head⟩

/-- Visitor body of `blockquote-indentation` for one block quote: the
observed indent is the column difference between the node start and its
first child's start. -/
def blockquoteCheck (opt : IndentOption) (n : Node) : IndentOption × List VMessage :=
  match pointStart n,
      (match n.children with | .nil => none | .cons h _ => pointStart h) with
  | some start, some head =>
    let count : Int := (head.column : Int) - (start.column : Int)
    match opt with
    | .consistent => (.num count, [])
    | .num o =>
      let diff := o - count
      if diff ≠ 0 then (opt, [blockquoteMsg diff head]) else (opt, [])
  | _, _ => (opt, [])

/-- Traversal of `blockquote-indentation` over the `blockquote` nodes in
document order. -/
def blockquoteVisit : IndentOption → List Node → IndentOption × List VMessage
  | opt, [] => (opt, [])
  | opt, n :: rest =>
    if n.type = "blockquote" then
      let step := blockquoteCheck opt n
      let tail := blockquoteVisit step.1 rest
      (tail.1, step.2 ++ tail.2)
    else blockquoteVisit opt rest

/-- The `blockquote-indentation` rule. -/
def remarkLintBlockquoteIndentation (tree : Node) (options : Option IndentOption) :
    List VMessage :=
  (blockquoteVisit (indentOptionOf options) (preorderN tree)).2

/-- Observation the `blockquote-indentation` rule extracts from one node:
the indent width of a block quote whose start and first child's start
resolve, paired with the head point the message would be placed at. -/
def bqObs (n : Node) : Option (Int × Point) :=
  if n.type = "blockquote" then
    match pointStart n,
        (match n.children with | .nil => none | .cons h _ => pointStart h) with
    | some start, some head =>
      some ((head.column : Int) - (start.column : Int), head)
    | _, _ => none
  else none

/-- Lookup in the association-list model of a JavaScript `Map`; entries are
prepended, so the first hit is the most recent write. -/
def mapLookup : List (String × String) → String → Option String
  | [], _ => none
  | (k, v) :: rest, key => if k = key then some v else mapLookup rest key

/-- Traversal of `no-duplicate-definitions`: for every positioned
`definition` or `footnoteDefinition`, report when the identifier was
already in the map (citing the stored stringified position) and then store
this node's stringified start under the identifier. -/
def remarkLintNoDuplicateDefinitionsVisit :
    List (String × String) → List Node → List VMessage
  | _, [] => []
  | map, n :: rest =>
    match positionOf n, pointStart n with
    | some place, some start =>
      if n.type = "definition" ∨ n.type = "footnoteDefinition" then
        let ms :=
          match mapLookup map n.identifier with
          | some duplicate =>
            if duplicate ≠ "" then
              [⟨"Do not use definitions with the same identifier (" ++ duplicate ++ ")",
                .span place⟩]
            else []
          | none => []
        ms ++ remarkLintNoDuplicateDefinitionsVisit
          ((n.identifier, stringifyPoint start) :: map) rest
      else remarkLintNoDuplicateDefinitionsVisit map rest
    | _, _ => remarkLintNoDuplicateDefinitionsVisit map rest

/-- The `no-duplicate-definitions` rule. -/
def remarkLintNoDuplicateDefinitions (tree : Node) : List VMessage :=
  remarkLintNoDuplicateDefinitionsVisit [] (preorderN tree)

/-- Traversal of `no-duplicate-headings`: for every positioned heading,
normalize the flattened text to upper case, report when it was already in
the map, and store this node's stringified start under the text. -/
def remarkLintNoDuplicateHeadingsVisit :
    List (String × String) → List Node → List VMessage
  | _, [] => []
  | map, n :: rest =>
    if n.type = "heading" then
      match positionOf n, pointStart n with
      | some _, some start =>
        let value := strToUpper (mdastToString n)
        let ms :=
          match mapLookup map value with
          | some duplicate =>
            if duplicate ≠ "" then
              [⟨"Do not use headings with similar content (" ++ duplicate ++ ")",
                nodePlace n⟩]
            else []
          | none => []
        ms ++ remarkLintNoDuplicateHeadingsVisit
          ((value, stringifyPoint start) :: map) rest
      | _, _ => remarkLintNoDuplicateHeadingsVisit map rest
    else remarkLintNoDuplicateHeadingsVisit map rest

/-- The `no-duplicate-headings` rule. -/
def remarkLintNoDuplicateHeadings (tree : Node) : List VMessage :=
  remarkLintNoDuplicateHeadingsVisit [] (preorderN tree)

/-- Observation extracted by `no-duplicate-definitions` from one node:
normalized key, start point and the node itself. -/
def defObs (n : Node) : Option (String × Point × Node) :=
  match positionOf n, pointStart n with
  | some _, some start =>
    if n.type = "definition" ∨ n.type = "footnoteDefinition" then
      some (n.identifier, start, n)
    else none
  | _, _ => none

/-- Observation extracted by `no-duplicate-headings` from one node. -/
def headingObs (n : Node) : Option (String × Point × Node) :=
  if n.type = "heading" then
    match positionOf n, pointStart n with
    | some _, some start => some (strToUpper (mdastToString n), start, n)
    | _, _ => none
  else none

/-- Most recent observation with the given key in a list of already-seen
observations. -/
def findLastKey : List (String × Point × Node) → String → Option (String × Point × Node)
  | [], _ => none
  | ob :: rest, key =>
    match findLastKey rest key with
    | some r => some r
    | none => if ob.1 = key then some ob else none

/-- Duplicate diagnostics as the spec words them: walking the observations
in document order, each observation whose key has already occurred yields
one diagnostic citing the stringified start of the most recent prior
occurrence of that key. -/
def dupSpecGo (mk : String → Node → VMessage)
    (pre : List (String × Point × Node)) :
    List (String × Point × Node) → List VMessage
  | [] => []
  | ob :: rest =>
    (match findLastKey pre ob.1 with
     | some prev => [mk (stringifyPoint prev.2.1) ob.2.2]
     | none => []) ++ dupSpecGo mk (pre ++ [ob]) rest

/-- Map contents after a list of observations has been processed: every
observation writes its stringified start under its key, later writes
shadowing earlier ones. -/
def dupMapOf (pre : List (String × Point × Node)) : List (String × String) :=
  (pre.map (fun ob => (ob.1, stringifyPoint ob.2.1))).reverse

/-- Duplicate-definition message for a cited prior position and a subject
node. -/
def mkDefDupMsg (prev : String) (n : Node) : VMessage :=
  ⟨"Do not use definitions with the same identifier (" ++ prev ++ ")", nodePlace n⟩

/-- Duplicate-heading message for a cited prior position and a subject
node. -/
def mkHeadingDupMsg (prev : String) (n : Node) : VMessage :=
  ⟨"Do not use headings with similar content (" ++ prev ++ ")", nodePlace n⟩

/-- Scope of one heading depth in `no-duplicate-headings-in-section`: an
association list from normalized heading text to the node stored for it. -/
def scopeLookup : List (String × Node) → String → Option Node
  | [], _ => none
  | (k, v) :: rest, key => if k = key then some v else scopeLookup rest key

/-- JavaScript `stack[index]` with `undefined` and array holes modelled as
the empty scope. -/
def stackGet (stack : List (List (String × Node))) (i : Nat) : List (String × Node) :=
  (stack.get? i).getD []

/-- JavaScript array element assignment `stack[index] = scope`, extending
the array with holes when the index is past the end. -/
def stackSet (stack : List (List (String × Node))) (i : Nat)
    (scope : List (String × Node)) : List (List (String × Node)) :=
  (stack ++ List.replicate (i + 1 - stack.length) []).set i scope

/-- Reason string of `no-duplicate-headings-in-section`. -/
def inSectionReason : String := "Do not use headings with similar content per section"

/-- Traversal of `no-duplicate-headings-in-section`: per-depth scopes in a
stack; a heading reports when its normalized text is in the scope of its
depth (unless the node is generated), stores itself there, and then the
stack is truncated to the heading's depth. -/
def remarkLintNoDuplicateHeadingsInSectionVisit :
    List (List (String × Node)) → List Node → List VMessage
  | _, [] => []
  | stack, n :: rest =>
    if n.type = "heading" then
      let depth := n.depth
      let value := strToUpper (mdastToString n)
      let index := depth - 1
      let scope := stackGet stack index
      let ms :=
        match scopeLookup scope value with
        | some dup =>
          if ¬(generated n = true) then
            [⟨inSectionReason ++ " (" ++ stringifyPosition (pointStart dup) ++ ")",
              nodePlace n⟩]
          else []
        | none => []
      ms ++ remarkLintNoDuplicateHeadingsInSectionVisit
        ((stackSet stack index ((value, n) :: scope)).take depth) rest
    else remarkLintNoDuplicateHeadingsInSectionVisit stack rest

/-- The `no-duplicate-headings-in-section` rule. -/
def remarkLintNoDuplicateHeadingsInSection (tree : Node) : List VMessage :=
  remarkLintNoDuplicateHeadingsInSectionVisit [] (preorderN tree)

/-- Characters of the configured character class, the source's
`new RegExp('[' + x + ']')`, modelled for classes of plain and
backslash-escaped characters (the shape of the default `'!,\\.:;?'`). -/
def headingPunctClassChars (cls : String) : List Char :=
  cls.toList.filter (fun c => c ≠ '\\')

/-- Traversal of `no-heading-punctuation`: for every heading with a
resolvable range, test the last character of the flattened text against
the character class. -/
def remarkLintNoHeadingPunctuationVisit (cls : String) : List Node → List VMessage
  | [] => []
  | n :: rest =>
    (if n.type = "heading" then
      match positionOf n with
      | some place =>
        let value := mdastToString n
        match value.toList.get? (value.length - 1) with
        | some tail =>
          if (headingPunctClassChars cls).contains tail then
            [⟨"Don’t add a trailing `" ++ tail.toString ++ "` to headings", .span place⟩]
          else []
        | none => []
      | none => []
     else []) ++ remarkLintNoHeadingPunctuationVisit cls rest

/-- The `no-heading-punctuation` rule. -/
def remarkLintNoHeadingPunctuation (tree : Node) (options : Option String) :
    List VMessage :=
  remarkLintNoHeadingPunctuationVisit (jsOrString options "!,\\.:;?") (preorderN tree)

/-- Block node types of `no-missing-blank-lines`. -/
def blockTypes : List String :=
  ["paragraph", "heading", "thematicBreak", "blockquote", "list", "table",
    "html", "code", "yaml"]

/-- Options record of `no-missing-blank-lines`. -/
structure BlankLinesOptions where
  exceptTightLists : Option Bool := none
deriving DecidableEq, Repr

/-- JavaScript `options ? options.exceptTightLists : false`, with the
resulting value used only in truthiness tests. -/
def exceptTightListsOf : Option BlankLinesOptions → Bool
  | none => false
  | some o => o.exceptTightLists.getD false

/-- Traversal of `no-missing-blank-lines` over the context-carrying visit
sequence: for every node with a parent and a resolvable end point (unless
tight list items are exempt and the parent is a `listItem`), report at the
following sibling when it is a block type whose resolvable start line is
exactly one past this node's end line. -/
def remarkLintNoMissingBlankLinesVisit (ex : Bool) :
    List (Node × Option (Nat × Node)) → List VMessage
  | [] => []
  | (n, ctx) :: rest =>
    (match ctx with
     | some (index, parent) =>
       match pointEnd n with
       | some e =>
         if ex = false ∨ parent.type ≠ "listItem" then
           match parent.children.get? (index + 1) with
           | some next =>
             match pointStart next with
             | some nextPoint =>
               if blockTypes.contains next.type ∧ nextPoint.line = e.line + 1 then
                 [⟨"Missing blank line before block node", nodePlace next⟩]
               else []
             | none => []
           | none => []
         else []
       | none => []
     | none => []) ++ remarkLintNoMissingBlankLinesVisit ex rest

/-- The `no-missing-blank-lines` rule. -/
def remarkLintNoMissingBlankLines (tree : Node) (options : Option BlankLinesOptions) :
    List VMessage :=
  remarkLintNoMissingBlankLinesVisit (exceptTightListsOf options) (preorderCtxN tree none)

/-- HTML comment test of `final-definition` (the source's regular
expression matching optional leading whitespace followed by an HTML
comment opener). -/
def htmlCommentStart (s : String) : Bool :=
  (s.toList.dropWhile (fun c => c == ' ' || c == '\t' || c == '\n' || c == '\r')).take 4
    == "<!--".toList

/-- Visitor body of `final-definition` for one node: ignore nodes without a
resolvable start, the root, and HTML comments; flag a definition when a
content line is already remembered and lies after the definition's line;
remember the first content line seen. -/
def finalDefinitionStep (last : Nat) (n : Node) : Nat × List VMessage :=
  match pointStart n with
  | none => (last, [])
  | some start =>
    if n.type = "root" ∨ (n.type = "html" ∧ htmlCommentStart (n.value.getD "")) then
      (last, [])
    else
      if n.type = "definition" then
        if last ≠ 0 ∧ start.line < last then
          (last,
            [⟨"Move definitions to the end of the file (after the node at line `" ++
                toString last ++ "`)", nodePlace n⟩])
        else (last, [])
      else if last = 0 then (start.line, []) else (last, [])

/-- Traversal of `final-definition`, threading the remembered line through
its reverse-mode visit sequence. -/
def remarkLintFinalDefinitionVisit : Nat → List Node → Nat × List VMessage
  | last, [] => (last, [])
  | last, n :: rest =>
    let step := finalDefinitionStep last n
    let tail := remarkLintFinalDefinitionVisit step.1 rest
    (tail.1, step.2 ++ tail.2)

/-- The `final-definition` rule: the tree is visited in reverse mode, so
the remembered line is that of the first content node of the reverse-mode
visit sequence. -/
def remarkLintFinalDefinition (tree : Node) : List VMessage :=
  (remarkLintFinalDefinitionVisit 0 (revOrderN tree)).2

/-- Content node per the spec's containment/order rule: a node with a
resolvable start that is neither the root, nor a definition, nor an HTML
comment. -/
def isContentNode (n : Node) : Prop :=
  (pointStart n).isSome = true ∧ n.type ≠ "root" ∧ n.type ≠ "definition" ∧
    ¬(n.type = "html" ∧ htmlCommentStart (n.value.getD "") = true)

instance (n : Node) : Decidable (isContentNode n) := by
  unfold isContentNode
  infer_instance

/-- Message the spec's containment/order rule predicts for a node once a
content line is remembered: one diagnostic per definition whose resolvable
start line lies before the remembered line, citing that line. -/
def finalDefSpecMsg (last : Nat) (n : Node) : Option VMessage :=
  match pointStart n with
  | some start =>
    if n.type = "definition" ∧ start.line < last then
      some ⟨"Move definitions to the end of the file (after the node at line `" ++
          toString last ++ "`)", nodePlace n⟩
    else none
  | none => none

/-- Leaf node with a type and an optional position. -/
def leafNode (t : String) (p : Option Position) : Node :=
  .mk { type := t, position := p } .nil

/-- Root node over the given children. -/
def rootNode (cs : List Node) : Node :=
  .mk { type := "root" } (nl cs)

/-- Heading of the given depth whose flattened text is `text`. -/
def mkHeading (depth : Nat) (text : String) (p : Option Position) : Node :=
  .mk { type := "heading", position := p, depth := depth }
    (nl [.mk { type := "text", value := some text } .nil])

/-- Definition node with an identifier. -/
def mkDefinition (id : String) (p : Option Position) : Node :=
  .mk { type := "definition", position := p, identifier := id } .nil

/-- Block quote over the given children. -/
def mkBlockquote (p : Option Position) (cs : List Node) : Node :=
  .mk { type := "blockquote", position := p } (nl cs)

/-- Thematic break node. -/
def mkThematicBreak (p : Option Position) : Node :=
  .mk { type := "thematicBreak", position := p } .nil

/-- Position spanning one line from column 1 to `c`. -/
def linePos (l c : Nat) : Position :=
  ⟨⟨l, 1, none⟩, ⟨l, c, none⟩⟩

/-- Position with explicit offsets, for rules that slice the source. -/
def linePosOff (l c a b : Nat) : Position :=
  ⟨⟨l, 1, some a⟩, ⟨l, c, some b⟩⟩

/-- Resolvable position: all four coordinates positive. -/
def validPos (p : Position) : Prop :=
  0 < p.start.line ∧ 0 < p.start.column ∧ 0 < p.stop.line ∧ 0 < p.stop.column

instance (p : Position) : Decidable (validPos p) := by
  unfold validPos
  infer_instance

/-- Index of the last element of a list, as the source computes it with
`value.charAt(value.length - 1)`. -/
theorem listGetLastAux (l : List Char) : l.get? (l.length - 1) = l.getLast? := by
  induction l with
  | nil => rfl
  | cons a t ih =>
    cases t with
    | nil => rfl
    | cons b t' =>
      have h1 : (a :: b :: t').length - 1 = ((b :: t').length - 1) + 1 := by
        simp
      rw [h1, List.getLast?_cons_cons]
      simpa using ih

/-- A non-empty string has a non-empty character list. -/
theorem strNeToList {value : String} (h : value ≠ "") : value.toList ≠ [] := by
  intro hl
  exact h (String.ext (by simpa [String.toList] using hl))

/-- A non-empty string has positive length. -/
theorem strLenPos {value : String} (h : value ≠ "") : 0 < value.length := by
  have h2 : value.toList ≠ [] := strNeToList h
  have h3 : 0 < value.toList.length := List.length_pos.mpr h2
  exact h3

/-- The character the source reads at `value.length - 1` is the last
character of the string. -/
theorem strCharAtLast (value : String) :
    value.toList.get? (value.length - 1) = value.toList.getLast? := by
  have h : value.length = value.toList.length := rfl
  rw [h, listGetLastAux]

/-- C10: the final-newline rule emits its single placeless diagnostic
exactly when the source text is non-empty and its last character is not a
line feed; an empty source yields no diagnostic. -/
theorem finalNewline_c10 :
    remarkLintFinalNewline "" = [] ∧
    (∀ value : String, value ≠ "" → value.toList.getLast? ≠ some '\n' →
      remarkLintFinalNewline value =
        [⟨"Missing newline character at end of file", Place.none⟩]) ∧
    (∀ value : String, value.toList.getLast? = some '\n' →
      remarkLintFinalNewline value = []) := by
  refine ⟨by decide, ?_, ?_⟩
  · intro value hne hlast
    have hlen : 0 < value.length := strLenPos hne
    unfold remarkLintFinalNewline
    rw [strCharAtLast]
    exact if_pos ⟨hlen, hlast⟩
  · intro value hlast
    unfold remarkLintFinalNewline
    rw [strCharAtLast, hlast]
    simp

/-- Witness for `finalNewline_c10` at concrete inputs. -/
theorem finalNewline_c10_witness :
    remarkLintFinalNewline "Bravo" =
      [⟨"Missing newline character at end of file", Place.none⟩] ∧
    remarkLintFinalNewline "Alpha\n" = [] := by
  constructor
  · exact (finalNewline_c10.2.1 "Bravo" (by decide) (by decide))
  · exact (finalNewline_c10.2.2 "Alpha\n" (by decide))

/-- C9: for `blockquote-indentation` the falsy configuration `0` is
normalized to `'consistent'`, exactly like an absent configuration: the
rule never compares block quotes against a preferred width of `0`. -/
theorem blockquoteIndentation_c9 (tree : Node) :
    remarkLintBlockquoteIndentation tree (some (.num 0)) =
      remarkLintBlockquoteIndentation tree (some .consistent) ∧
    remarkLintBlockquoteIndentation tree none =
      remarkLintBlockquoteIndentation tree (some .consistent) := by
  constructor
  · unfold remarkLintBlockquoteIndentation indentOptionOf
    rfl
  · rfl

/-- C4: a configured rule style other than `'consistent'` containing a
character outside the recognized marker set makes `rule-style` fail with
the fatal configuration message, for every tree and source text, so no
diagnostic list is produced at all. -/
theorem ruleStyle_c4 (tree : Node) (value s : String)
    (h1 : s ≠ "consistent") (h2 : s.toList.any ruleStyleBadChar = true) :
    remarkLintRuleStyle tree value (some s) =
      .error "Incorrect preferred rule style: provide a correct markdown rule or `'consistent'`" := by
  have hne : s ≠ "" := by
    intro h
    subst h
    exact absurd h2 (by decide)
  unfold remarkLintRuleStyle
  simp only [jsOrString, if_neg hne]
  rw [if_pos ⟨h1, h2⟩]

/-- Witness for `ruleStyle_c4`: an invalid style fails even on a tree that
contains a violating thematic break. -/
theorem ruleStyle_c4_witness :
    remarkLintRuleStyle
        (rootNode [mkThematicBreak (some (linePosOff 1 4 0 3)),
          mkThematicBreak (some (linePosOff 3 6 5 10))])
        "***\n\n* * *" (some "x_x") =
      .error "Incorrect preferred rule style: provide a correct markdown rule or `'consistent'`" :=
  ruleStyle_c4 _ _ "x_x" (by decide) (by decide)

/-- A node with no resolvable range is skipped by the `rule-style` visitor
body: the preferred style is unchanged and nothing is reported. -/
theorem ruleStyleCheck_unpositioned (value opt : String) (g : Node)
    (h : positionOf g = none) : ruleStyleCheck value opt g = (opt, []) := by
  unfold positionOf at h
  unfold ruleStyleCheck
  cases hs : pointStart g <;> cases he : pointEnd g <;> simp_all

/-- Visitor body of `rule-style` in concrete mode, described through the
extracted observation. -/
theorem ruleStyleCheck_concrete (value s : String) (n : Node)
    (hs : s ≠ "consistent") (ht : n.type = "thematicBreak") :
    ruleStyleCheck value s n =
      (s, match tbObs value n with
          | some p => if p.1 ≠ s then [ruleStyleMsg s p.2] else []
          | none => []) := by
  unfold ruleStyleCheck tbObs
  rw [if_pos ht]
  cases hps : pointStart n with
  | none => simp
  | some s0 =>
    cases hpe : pointEnd n with
    | none => simp
    | some e0 =>
      cases hso : s0.offset with
      | none => simp [hso]
      | some so =>
        cases heo : e0.offset with
        | none => simp [hso, heo]
        | some eo =>
          by_cases hr : strSlice value so eo = s
          · simp [hso, heo, hr, hs]
          · simp [hso, heo, hr, hs]

/-- Traversal of `rule-style` in concrete mode: the preferred style never
changes and exactly the differing observations are reported, each message
citing the expected style. -/
theorem ruleStyleVisit_concrete (value s : String) (ns : List Node)
    (hs : s ≠ "consistent") :
    ruleStyleVisit value s ns =
      (s, (ns.filterMap (tbObs value)).filterMap
        (fun p => if p.1 ≠ s then some (ruleStyleMsg s p.2) else none)) := by
  induction ns with
  | nil => simp [ruleStyleVisit]
  | cons n rest ih =>
    by_cases ht : n.type = "thematicBreak"
    · rw [show ruleStyleVisit value s (n :: rest) =
          (if n.type = "thematicBreak" then
            let step := ruleStyleCheck value s n
            let tail := ruleStyleVisit value step.1 rest
            (tail.1, step.2 ++ tail.2)
          else ruleStyleVisit value s rest) from rfl]
      rw [if_pos ht, ruleStyleCheck_concrete value s n hs ht]
      cases htb : tbObs value n with
      | none => simp [htb, ih]
      | some p => by_cases hp : p.1 = s <;> simp [htb, hp, ih]
    · have htb : tbObs value n = none := by
        unfold tbObs
        rw [if_neg ht]
      rw [show ruleStyleVisit value s (n :: rest) =
          (if n.type = "thematicBreak" then
            let step := ruleStyleCheck value s n
            let tail := ruleStyleVisit value step.1 rest
            (tail.1, step.2 ++ tail.2)
          else ruleStyleVisit value s rest) from rfl]
      rw [if_neg ht]
      simp [htb, ih]

/-- Visitor body of `rule-style` in `'consistent'` mode: the observation
is adopted as the preferred style and nothing is reported. -/
theorem ruleStyleCheck_consistent (value : String) (n : Node)
    (ht : n.type = "thematicBreak") :
    ruleStyleCheck value "consistent" n =
      (match tbObs value n with
       | some p => p.1
       | none => "consistent", []) := by
  unfold ruleStyleCheck tbObs
  rw [if_pos ht]
  cases hps : pointStart n with
  | none => simp
  | some s0 =>
    cases hpe : pointEnd n with
    | none => simp
    | some e0 =>
      cases hso : s0.offset with
      | none => simp [hso]
      | some so =>
        cases heo : e0.offset with
        | none => simp [hso, heo]
        | some eo => simp [hso, heo]

/-- Traversal of `rule-style` in `'consistent'` mode, provided no
observation literally equals the sentinel: the first observation is
adopted with no diagnostic, and exactly the later observations differing
from it are reported, citing the adopted style. -/
theorem ruleStyleVisit_consistent (value : String) (ns : List Node)
    (hall : ∀ p ∈ ns.filterMap (tbObs value), p.1 ≠ "consistent") :
    (ruleStyleVisit value "consistent" ns).2 =
      match ns.filterMap (tbObs value) with
      | [] => []
      | p :: rest => rest.filterMap
          (fun q => if q.1 ≠ p.1 then some (ruleStyleMsg p.1 q.2) else none) := by
  induction ns with
  | nil => simp [ruleStyleVisit]
  | cons n rest ih =>
    by_cases ht : n.type = "thematicBreak"
    · rw [show ruleStyleVisit value "consistent" (n :: rest) =
          (if n.type = "thematicBreak" then
            let step := ruleStyleCheck value "consistent" n
            let tail := ruleStyleVisit value step.1 rest
            (tail.1, step.2 ++ tail.2)
          else ruleStyleVisit value "consistent" rest) from rfl]
      rw [if_pos ht, ruleStyleCheck_consistent value n ht]
      cases htb : tbObs value n with
      | none =>
        have hall' : ∀ p ∈ rest.filterMap (tbObs value), p.1 ≠ "consistent" := by
          intro p hp
          exact hall p (by simp [htb, hp])
        simp [htb, ih hall']
      | some p =>
        have hp1 : p.1 ≠ "consistent" := by
          apply hall
          simp [htb]
        simp [htb, ruleStyleVisit_concrete value p.1 rest hp1]
    · have htb : tbObs value n = none := by
        unfold tbObs
        rw [if_neg ht]
      have hall' : ∀ p ∈ rest.filterMap (tbObs value), p.1 ≠ "consistent" := by
        intro p hp
        exact hall p (by simp [htb, hp])
      rw [show ruleStyleVisit value "consistent" (n :: rest) =
          (if n.type = "thematicBreak" then
            let step := ruleStyleCheck value "consistent" n
            let tail := ruleStyleVisit value step.1 rest
            (tail.1, step.2 ++ tail.2)
          else ruleStyleVisit value "consistent" rest) from rfl]
      rw [if_neg ht]
      simp [htb, ih hall']

/-- Visitor body of `blockquote-indentation` with a concrete preferred
width, described through the extracted observation. -/
theorem blockquoteCheck_concrete (o : Int) (n : Node) (ht : n.type = "blockquote") :
    blockquoteCheck (.num o) n =
      (.num o, match bqObs n with
       | some p => if o - p.1 ≠ 0 then [blockquoteMsg (o - p.1) p.2] else []
       | none => []) := by
  unfold blockquoteCheck bqObs
  rw [if_pos ht]
  cases hps : pointStart n with
  | none => simp
  | some start =>
    cases hph : (match n.children with | .nil => none | .cons h _ => pointStart h) with
    | none => simp
    | some head =>
      by_cases hd : o - ((head.column : Int) - (start.column : Int)) = 0 <;> simp [hd]

/-- Visitor body of `blockquote-indentation` in `'consistent'` mode. -/
theorem blockquoteCheck_consistent (n : Node) (ht : n.type = "blockquote") :
    blockquoteCheck .consistent n =
      (match bqObs n with
       | some p => .num p.1
       | none => .consistent, []) := by
  unfold blockquoteCheck bqObs
  rw [if_pos ht]
  cases hps : pointStart n with
  | none => simp
  | some start =>
    cases hph : (match n.children with | .nil => none | .cons h _ => pointStart h) with
    | none => simp
    | some head => simp

/-- Traversal of `blockquote-indentation` with a concrete preferred width:
the preferred width never changes and exactly the differing observations
are reported, with the number of spaces to add or remove. -/
theorem blockquoteVisit_concrete (o : Int) (ns : List Node) :
    blockquoteVisit (.num o) ns =
      (.num o, (ns.filterMap bqObs).filterMap
        (fun p => if o - p.1 ≠ 0 then some (blockquoteMsg (o - p.1) p.2) else none)) := by
  induction ns with
  | nil => simp [blockquoteVisit]
  | cons n rest ih =>
    by_cases ht : n.type = "blockquote"
    · rw [show blockquoteVisit (.num o) (n :: rest) =
          (if n.type = "blockquote" then
            let step := blockquoteCheck (.num o) n
            let tail := blockquoteVisit step.1 rest
            (tail.1, step.2 ++ tail.2)
          else blockquoteVisit (.num o) rest) from rfl]
      rw [if_pos ht, blockquoteCheck_concrete o n ht]
      cases htb : bqObs n with
      | none => simp [htb, ih]
      | some p => by_cases hp : o - p.1 = 0 <;> simp [htb, hp, ih]
    · have htb : bqObs n = none := by
        unfold bqObs
        rw [if_neg ht]
      rw [show blockquoteVisit (.num o) (n :: rest) =
          (if n.type = "blockquote" then
            let step := blockquoteCheck (.num o) n
            let tail := blockquoteVisit step.1 rest
            (tail.1, step.2 ++ tail.2)
          else blockquoteVisit (.num o) rest) from rfl]
      rw [if_neg ht]
      simp [htb, ih]

/-- Traversal of `blockquote-indentation` in `'consistent'` mode: the
first observed indent is adopted with no diagnostic, and exactly the later
observations differing from it are reported. -/
theorem blockquoteVisit_consistent (ns : List Node) :
    (blockquoteVisit .consistent ns).2 =
      match ns.filterMap bqObs with
      | [] => []
      | p :: rest => rest.filterMap
          (fun q => if p.1 - q.1 ≠ 0 then some (blockquoteMsg (p.1 - q.1) q.2) else none) := by
  induction ns with
  | nil => simp [blockquoteVisit]
  | cons n rest ih =>
    by_cases ht : n.type = "blockquote"
    · rw [show blockquoteVisit .consistent (n :: rest) =
          (if n.type = "blockquote" then
            let step := blockquoteCheck .consistent n
            let tail := blockquoteVisit step.1 rest
            (tail.1, step.2 ++ tail.2)
          else blockquoteVisit .consistent rest) from rfl]
      rw [if_pos ht, blockquoteCheck_consistent n ht]
      cases htb : bqObs n with
      | none => simp [htb, ih]
      | some p => simp [htb, blockquoteVisit_concrete p.1 rest]
    · have htb : bqObs n = none := by
        unfold bqObs
        rw [if_neg ht]
      rw [show blockquoteVisit .consistent (n :: rest) =
          (if n.type = "blockquote" then
            let step := blockquoteCheck .consistent n
            let tail := blockquoteVisit step.1 rest
            (tail.1, step.2 ++ tail.2)
          else blockquoteVisit .consistent rest) from rfl]
      rw [if_neg ht]
      simp [htb, ih]

/-- C1 (amended): consistency behaviour of `rule-style` and
`blockquote-indentation` over the qualifying observations in document
order.  With a concrete valid configuration, exactly the differing
observations are flagged; `rule-style` cites the expected style in the
message, while `blockquote-indentation` cites the direction and absolute
number of spaces to adjust (not the expected width).  In `'consistent'`
mode the first observation is adopted silently and exactly the later
differing observations are flagged. -/
theorem consistencyRules_c1 :
    (∀ (tree : Node) (value s : String), s ≠ "consistent" → s ≠ "" →
      s.toList.any ruleStyleBadChar = false →
      remarkLintRuleStyle tree value (some s) =
        .ok (((preorderN tree).filterMap (tbObs value)).filterMap
          (fun p => if p.1 ≠ s then some (ruleStyleMsg s p.2) else none))) ∧
    (∀ (tree : Node) (value : String),
      (∀ p ∈ (preorderN tree).filterMap (tbObs value), p.1 ≠ "consistent") →
      remarkLintRuleStyle tree value none =
        .ok (match (preorderN tree).filterMap (tbObs value) with
             | [] => []
             | p :: rest => rest.filterMap
                 (fun q => if q.1 ≠ p.1 then some (ruleStyleMsg p.1 q.2) else none))) ∧
    (∀ (tree : Node) (o : Int), o ≠ 0 →
      remarkLintBlockquoteIndentation tree (some (.num o)) =
        ((preorderN tree).filterMap bqObs).filterMap
          (fun p => if o - p.1 ≠ 0 then some (blockquoteMsg (o - p.1) p.2) else none)) ∧
    (∀ tree : Node,
      remarkLintBlockquoteIndentation tree none =
        match (preorderN tree).filterMap bqObs with
        | [] => []
        | p :: rest => rest.filterMap
            (fun q => if p.1 - q.1 ≠ 0 then some (blockquoteMsg (p.1 - q.1) q.2) else none)) := by
  refine ⟨?_, ?_, ?_, ?_⟩
  · intro tree value s hs hne hbad
    unfold remarkLintRuleStyle
    simp only [jsOrString, if_neg hne]
    rw [if_neg (fun h => by
      have h2 := h.2
      rw [hbad] at h2
      exact Bool.false_ne_true h2)]
    rw [ruleStyleVisit_concrete value s _ hs]
  · intro tree value hall
    unfold remarkLintRuleStyle
    simp only [jsOrString]
    rw [if_neg (by simp)]
    rw [ruleStyleVisit_consistent value _ hall]
  · intro tree o ho
    unfold remarkLintBlockquoteIndentation
    simp only [indentOptionOf]
    rw [if_neg ho, blockquoteVisit_concrete]
  · intro tree
    unfold remarkLintBlockquoteIndentation
    simp only [indentOptionOf]
    rw [blockquoteVisit_consistent]

/-- Counterexample to C1 as stated: with a concrete preferred indent of 7
and one block quote indented 4, `blockquote-indentation` flags the
observation, but its message is the adjustment `Add 3 spaces between block
quote and content` — the expected value 7 is cited nowhere in the message
(the digit does not even occur in it). -/
theorem consistencyRules_c1_counterexample :
    remarkLintBlockquoteIndentation
        (rootNode [mkBlockquote (some ⟨⟨1, 1, none⟩, ⟨2, 10, none⟩⟩)
          [leafNode "paragraph" (some ⟨⟨1, 5, none⟩, ⟨2, 10, none⟩⟩)]])
        (some (.num 7)) =
      [⟨"Add 3 spaces between block quote and content", .point ⟨1, 5, none⟩⟩] ∧
    ('7' ∈ "Add 3 spaces between block quote and content".toList) = False := by
  constructor
  · decide
  · simp

/-- Witness for `consistencyRules_c1`, applying all four parts at concrete
trees: two thematic breaks `***` and `* * *`, and two block quotes of
indent 4 and 2. -/
theorem consistencyRules_c1_witness :
    remarkLintRuleStyle
        (rootNode [mkThematicBreak (some (linePosOff 1 4 0 3)),
          mkThematicBreak (some (linePosOff 3 6 5 10))])
        "***\n\n* * *" (some "***") =
      .ok [ruleStyleMsg "***" (mkThematicBreak (some (linePosOff 3 6 5 10)))] ∧
    remarkLintRuleStyle
        (rootNode [mkThematicBreak (some (linePosOff 1 4 0 3)),
          mkThematicBreak (some (linePosOff 3 6 5 10))])
        "***\n\n* * *" none =
      .ok [ruleStyleMsg "***" (mkThematicBreak (some (linePosOff 3 6 5 10)))] ∧
    remarkLintBlockquoteIndentation
        (rootNode [mkBlockquote (some ⟨⟨1, 1, none⟩, ⟨2, 10, none⟩⟩)
            [leafNode "paragraph" (some ⟨⟨1, 5, none⟩, ⟨2, 10, none⟩⟩)],
          mkBlockquote (some ⟨⟨4, 1, none⟩, ⟨5, 8, none⟩⟩)
            [leafNode "paragraph" (some ⟨⟨4, 3, none⟩, ⟨5, 8, none⟩⟩)]])
        (some (.num 7)) =
      [blockquoteMsg 3 ⟨1, 5, none⟩, blockquoteMsg 5 ⟨4, 3, none⟩] ∧
    remarkLintBlockquoteIndentation
        (rootNode [mkBlockquote (some ⟨⟨1, 1, none⟩, ⟨2, 10, none⟩⟩)
            [leafNode "paragraph" (some ⟨⟨1, 5, none⟩, ⟨2, 10, none⟩⟩)],
          mkBlockquote (some ⟨⟨4, 1, none⟩, ⟨5, 8, none⟩⟩)
            [leafNode "paragraph" (some ⟨⟨4, 3, none⟩, ⟨5, 8, none⟩⟩)]])
        none =
      [blockquoteMsg 2 ⟨4, 3, none⟩] := by
  refine ⟨?_, ?_, ?_, ?_⟩
  · rw [consistencyRules_c1.1 _ _ "***" (by decide) (by decide) (by decide)]
    rfl
  · rw [consistencyRules_c1.2.1 _ _ (by decide)]
    rfl
  · rw [consistencyRules_c1.2.2.1 _ 7 (by decide)]
    rfl
  · rw [consistencyRules_c1.2.2.2]
    rfl

/-- Traversal of `rule-style` reports nothing when every observation
carries the same marker text, whatever the current preferred style is, as
long as that style is the observed one or the sentinel. -/
theorem ruleStyleVisit_allEqual (value v : String) :
    ∀ (ns : List Node) (o : String), (o = v ∨ o = "consistent") →
      (∀ p ∈ ns.filterMap (tbObs value), p.1 = v) →
      (ruleStyleVisit value o ns).2 = [] := by
  intro ns
  induction ns with
  | nil => intro o _ _; simp [ruleStyleVisit]
  | cons n rest ih =>
    intro o ho hall
    by_cases ht : n.type = "thematicBreak"
    · rw [show ruleStyleVisit value o (n :: rest) =
          (if n.type = "thematicBreak" then
            let step := ruleStyleCheck value o n
            let tail := ruleStyleVisit value step.1 rest
            (tail.1, step.2 ++ tail.2)
          else ruleStyleVisit value o rest) from rfl]
      rw [if_pos ht]
      by_cases hoc : o = "consistent"
      · subst hoc
        rw [ruleStyleCheck_consistent value n ht]
        cases htb : tbObs value n with
        | none =>
          have hall' : ∀ p ∈ rest.filterMap (tbObs value), p.1 = v := by
            intro p hp
            exact hall p (by simp [htb, hp])
          simp [htb, ih "consistent" (Or.inr rfl) hall']
        | some p =>
          have hp1 : p.1 = v := hall p (by simp [htb])
          have hall' : ∀ q ∈ rest.filterMap (tbObs value), q.1 = v := by
            intro q hq
            exact hall q (by simp [htb, hq])
          simp [htb, ih p.1 (Or.inl hp1) hall']
      · have hov : o = v := ho.resolve_right hoc
        rw [ruleStyleCheck_concrete value o n hoc ht]
        cases htb : tbObs value n with
        | none =>
          have hall' : ∀ p ∈ rest.filterMap (tbObs value), p.1 = v := by
            intro p hp
            exact hall p (by simp [htb, hp])
          simp [htb, ih o ho hall']
        | some p =>
          have hp1 : p.1 = v := hall p (by simp [htb])
          have hall' : ∀ q ∈ rest.filterMap (tbObs value), q.1 = v := by
            intro q hq
            exact hall q (by simp [htb, hq])
          have hpo : p.1 = o := by rw [hp1, hov]
          simp [htb, hpo, ih o ho hall']
    · have htb : tbObs value n = none := by
        unfold tbObs
        rw [if_neg ht]
      have hall' : ∀ p ∈ rest.filterMap (tbObs value), p.1 = v := by
        intro p hp
        exact hall p (by simp [htb, hp])
      rw [show ruleStyleVisit value o (n :: rest) =
          (if n.type = "thematicBreak" then
            let step := ruleStyleCheck value o n
            let tail := ruleStyleVisit value step.1 rest
            (tail.1, step.2 ++ tail.2)
          else ruleStyleVisit value o rest) from rfl]
      rw [if_neg ht]
      exact ih o ho hall'

/-- C8: in `'consistent'` mode, when all qualifying observations of
`rule-style` share one marker text, no diagnostics are produced — in
whatever order the observations occur. -/
theorem ruleStyle_c8 (tree : Node) (value v : String)
    (hall : ∀ p ∈ (preorderN tree).filterMap (tbObs value), p.1 = v) :
    remarkLintRuleStyle tree value none = .ok [] := by
  unfold remarkLintRuleStyle
  simp only [jsOrString]
  rw [if_neg (by simp)]
  rw [ruleStyleVisit_allEqual value v _ "consistent" (Or.inr rfl) hall]

/-- Witness for `ruleStyle_c8`: two identical `* * *` breaks, in both of
the two possible document orders (the observation lists are reorderings of
one another), produce no diagnostics. -/
theorem ruleStyle_c8_witness :
    remarkLintRuleStyle
        (rootNode [mkThematicBreak (some (linePosOff 1 6 0 5)),
          mkThematicBreak (some (linePosOff 3 6 7 12))])
        "* * *\n\n* * *" none = .ok [] ∧
    remarkLintRuleStyle
        (rootNode [mkThematicBreak (some (linePosOff 3 6 7 12)),
          mkThematicBreak (some (linePosOff 1 6 0 5))])
        "* * *\n\n* * *" none = .ok [] :=
  ⟨ruleStyle_c8 _ _ "* * *" (by decide), ruleStyle_c8 _ _ "* * *" (by decide)⟩

/-- Distribution of `no-heading-punctuation` over concatenation of visit
sequences. -/
theorem hpVisit_append (cls : String) (xs ys : List Node) :
    remarkLintNoHeadingPunctuationVisit cls (xs ++ ys) =
      remarkLintNoHeadingPunctuationVisit cls xs ++
        remarkLintNoHeadingPunctuationVisit cls ys := by
  induction xs with
  | nil => simp [remarkLintNoHeadingPunctuationVisit]
  | cons n rest ih => simp [remarkLintNoHeadingPunctuationVisit, ih]

/-- A node without a position field has no resolvable start point. -/
theorem pointStart_noPos {n : Node} (h : n.position = none) : pointStart n = none := by
  unfold pointStart
  rw [h]

/-- A node without a position field has no resolvable end point. -/
theorem pointEnd_noPos {n : Node} (h : n.position = none) : pointEnd n = none := by
  unfold pointEnd
  rw [h]

/-- A node without a position field has no resolvable range. -/
theorem positionOf_noPos {n : Node} (h : n.position = none) : positionOf n = none := by
  unfold positionOf
  rw [pointStart_noPos h, pointEnd_noPos h]

/-- The `blockquote-indentation` visitor body skips a node without a
position field. -/
theorem blockquoteCheck_noPos (opt : IndentOption) (g : Node)
    (h : g.position = none) : blockquoteCheck opt g = (opt, []) := by
  unfold blockquoteCheck
  cases hh : (match g.children with
    | NodeList.nil => none
    | NodeList.cons hd _ => pointStart hd) with
  | none => rw [pointStart_noPos h]
  | some q => rw [pointStart_noPos h]

/-- The `final-definition` visitor body leaves its state unchanged on a
node with no resolvable start. -/
theorem finalDefStep_noStart (last : Nat) (g : Node) (h : pointStart g = none) :
    finalDefinitionStep last g = (last, []) := by
  unfold finalDefinitionStep
  rw [h]

/-- Distribution of `no-missing-blank-lines` over concatenation of visit
sequences. -/
theorem nmblVisit_append (ex : Bool) (xs ys : List (Node × Option (Nat × Node))) :
    remarkLintNoMissingBlankLinesVisit ex (xs ++ ys) =
      remarkLintNoMissingBlankLinesVisit ex xs ++
        remarkLintNoMissingBlankLinesVisit ex ys := by
  induction xs with
  | nil => simp [remarkLintNoMissingBlankLinesVisit]
  | cons e rest ih =>
    cases e with
    | mk n ctx => simp [remarkLintNoMissingBlankLinesVisit, ih]

/-- One visitor step of `no-duplicate-headings-in-section` on a non-heading
node changes nothing. -/
theorem inSectionVisit_skip (stack : List (List (String × Node))) (n : Node)
    (ns : List Node) (h : ¬n.type = "heading") :
    remarkLintNoDuplicateHeadingsInSectionVisit stack (n :: ns) =
      remarkLintNoDuplicateHeadingsInSectionVisit stack ns := by
  simp only [remarkLintNoDuplicateHeadingsInSectionVisit, if_neg h]

/-- One visitor step of `no-duplicate-headings-in-section` on a heading:
the possible duplicate message for the scope of its depth, then the rest
with the heading stored and the stack truncated to its depth. -/
theorem inSectionVisit_heading (stack : List (List (String × Node))) (n : Node)
    (ns : List Node) (h : n.type = "heading") :
    remarkLintNoDuplicateHeadingsInSectionVisit stack (n :: ns) =
      (match scopeLookup (stackGet stack (n.depth - 1)) (strToUpper (mdastToString n)) with
       | some dup =>
         if ¬(generated n = true) then
           [⟨inSectionReason ++ " (" ++ stringifyPosition (pointStart dup) ++ ")",
             nodePlace n⟩]
         else []
       | none => []) ++
      remarkLintNoDuplicateHeadingsInSectionVisit
        ((stackSet stack (n.depth - 1)
          ((strToUpper (mdastToString n), n) :: stackGet stack (n.depth - 1))).take n.depth)
        ns := by
  simp only [remarkLintNoDuplicateHeadingsInSectionVisit, if_pos h]

/-- Empty visit sequence of `no-duplicate-headings-in-section`. -/
theorem inSectionVisit_nil (stack : List (List (String × Node))) :
    remarkLintNoDuplicateHeadingsInSectionVisit stack [] = [] := rfl

/-- Every diagnostic of the `no-duplicate-headings-in-section` traversal
has as its subject a visited node that is not generated: the message place
is that node's resolved place. -/
theorem inSectionVisit_subjects : ∀ (ns : List Node)
    (stack : List (List (String × Node))) (m : VMessage),
    m ∈ remarkLintNoDuplicateHeadingsInSectionVisit stack ns →
    ∃ sub, sub ∈ ns ∧ ¬(generated sub = true) ∧ m.place = nodePlace sub := by
  intro ns
  induction ns with
  | nil =>
    intro stack m hm
    simp [remarkLintNoDuplicateHeadingsInSectionVisit] at hm
  | cons n rest ih =>
    intro stack m hm
    by_cases ht : n.type = "heading"
    · rw [inSectionVisit_heading stack n rest ht] at hm
      rcases List.mem_append.mp hm with hm1 | hm2
      · cases hsl : scopeLookup (stackGet stack (n.depth - 1))
            (strToUpper (mdastToString n)) with
        | none =>
          rw [hsl] at hm1
          simp at hm1
        | some dup =>
          rw [hsl] at hm1
          by_cases hgen : generated n = true
          · simp [hgen] at hm1
          · simp [hgen] at hm1
            refine ⟨n, by simp, hgen, ?_⟩
            rw [hm1]
      · obtain ⟨sub, hsub, hgen, hpl⟩ := ih _ m hm2
        exact ⟨sub, by simp [hsub], hgen, hpl⟩
    · rw [inSectionVisit_skip stack n rest ht] at hm
      obtain ⟨sub, hsub, hgen, hpl⟩ := ih stack m hm
      exact ⟨sub, by simp [hsub], hgen, hpl⟩

/-- C5: a node with no resolvable source position (a generated node) is
never the subject of an emitted diagnostic, for every embedded rule that
reports on nodes.  For `no-heading-punctuation`, `rule-style`,
`blockquote-indentation`, `no-duplicate-definitions`,
`no-duplicate-headings`, `no-missing-blank-lines` and `final-definition`,
inserting such a node anywhere in the visit sequence leaves the output
unchanged: the node is silently skipped rather than given a fabricated
location, and the run does not fail.  For
`no-duplicate-headings-in-section` (whose scope state does record every
heading), every diagnostic's place is the resolved place of some
non-generated visited node, so a generated node is never the subject
there either. -/
theorem positionless_c5 :
    (∀ (cls : String) (pre post : List Node) (g : Node), positionOf g = none →
      remarkLintNoHeadingPunctuationVisit cls (pre ++ g :: post) =
        remarkLintNoHeadingPunctuationVisit cls (pre ++ post)) ∧
    (∀ (value opt : String) (pre post : List Node) (g : Node), positionOf g = none →
      ruleStyleVisit value opt (pre ++ g :: post) =
        ruleStyleVisit value opt (pre ++ post)) ∧
    (∀ (opt : IndentOption) (pre post : List Node) (g : Node), g.position = none →
      blockquoteVisit opt (pre ++ g :: post) = blockquoteVisit opt (pre ++ post)) ∧
    (∀ (map : List (String × String)) (pre post : List Node) (g : Node),
      positionOf g = none →
      remarkLintNoDuplicateDefinitionsVisit map (pre ++ g :: post) =
        remarkLintNoDuplicateDefinitionsVisit map (pre ++ post)) ∧
    (∀ (map : List (String × String)) (pre post : List Node) (g : Node),
      positionOf g = none →
      remarkLintNoDuplicateHeadingsVisit map (pre ++ g :: post) =
        remarkLintNoDuplicateHeadingsVisit map (pre ++ post)) ∧
    (∀ (ex : Bool) (pre post : List (Node × Option (Nat × Node))) (g : Node)
        (ctx : Option (Nat × Node)), g.position = none →
      remarkLintNoMissingBlankLinesVisit ex (pre ++ (g, ctx) :: post) =
        remarkLintNoMissingBlankLinesVisit ex (pre ++ post)) ∧
    (∀ (last : Nat) (pre post : List Node) (g : Node), g.position = none →
      remarkLintFinalDefinitionVisit last (pre ++ g :: post) =
        remarkLintFinalDefinitionVisit last (pre ++ post)) ∧
    (∀ (stack : List (List (String × Node))) (ns : List Node) (m : VMessage),
      m ∈ remarkLintNoDuplicateHeadingsInSectionVisit stack ns →
      ∃ sub, sub ∈ ns ∧ ¬(generated sub = true) ∧ m.place = nodePlace sub) := by
  refine ⟨?_, ?_, ?_, ?_, ?_, ?_, ?_, ?_⟩
  · intro cls pre post g hg
    rw [show pre ++ g :: post = pre ++ ([g] ++ post) from rfl]
    rw [hpVisit_append, hpVisit_append, hpVisit_append]
    have hskip : remarkLintNoHeadingPunctuationVisit cls [g] = [] := by
      rw [show remarkLintNoHeadingPunctuationVisit cls [g] =
          (if g.type = "heading" then
            match positionOf g with
            | some place =>
              let value := mdastToString g
              match value.toList.get? (value.length - 1) with
              | some tail =>
                if (headingPunctClassChars cls).contains tail then
                  [⟨"Don’t add a trailing `" ++ tail.toString ++ "` to headings",
                    .span place⟩]
                else []
              | none => []
            | none => []
           else []) ++ remarkLintNoHeadingPunctuationVisit cls [] from rfl]
      rw [hg]
      by_cases ht : g.type = "heading"
      · rw [if_pos ht]
        rfl
      · rw [if_neg ht]
        rfl
    rw [hskip]
    simp
  · intro value opt pre post g hg
    induction pre generalizing opt with
    | nil =>
      simp only [List.nil_append]
      rw [show ruleStyleVisit value opt (g :: post) =
          (if g.type = "thematicBreak" then
            let step := ruleStyleCheck value opt g
            let tail := ruleStyleVisit value step.1 post
            (tail.1, step.2 ++ tail.2)
          else ruleStyleVisit value opt post) from rfl]
      by_cases ht : g.type = "thematicBreak"
      · rw [if_pos ht, ruleStyleCheck_unpositioned value opt g hg]
        simp
      · rw [if_neg ht]
    | cons n rest ih =>
      rw [show (n :: rest) ++ g :: post = n :: (rest ++ g :: post) from rfl,
        show (n :: rest) ++ post = n :: (rest ++ post) from rfl]
      rw [show ruleStyleVisit value opt (n :: (rest ++ g :: post)) =
          (if n.type = "thematicBreak" then
            let step := ruleStyleCheck value opt n
            let tail := ruleStyleVisit value step.1 (rest ++ g :: post)
            (tail.1, step.2 ++ tail.2)
          else ruleStyleVisit value opt (rest ++ g :: post)) from rfl]
      rw [show ruleStyleVisit value opt (n :: (rest ++ post)) =
          (if n.type = "thematicBreak" then
            let step := ruleStyleCheck value opt n
            let tail := ruleStyleVisit value step.1 (rest ++ post)
            (tail.1, step.2 ++ tail.2)
          else ruleStyleVisit value opt (rest ++ post)) from rfl]
      by_cases ht : n.type = "thematicBreak"
      · rw [if_pos ht, if_pos ht]
        simp only [ih]
      · rw [if_neg ht, if_neg ht]
        exact ih opt
  · intro opt pre post g hg
    induction pre generalizing opt with
    | nil =>
      simp only [List.nil_append]
      rw [show blockquoteVisit opt (g :: post) =
          (if g.type = "blockquote" then
            let step := blockquoteCheck opt g
            let tail := blockquoteVisit step.1 post
            (tail.1, step.2 ++ tail.2)
          else blockquoteVisit opt post) from rfl]
      by_cases ht : g.type = "blockquote"
      · rw [if_pos ht, blockquoteCheck_noPos opt g hg]
        simp
      · rw [if_neg ht]
    | cons n rest ih =>
      rw [show (n :: rest) ++ g :: post = n :: (rest ++ g :: post) from rfl,
        show (n :: rest) ++ post = n :: (rest ++ post) from rfl]
      rw [show blockquoteVisit opt (n :: (rest ++ g :: post)) =
          (if n.type = "blockquote" then
            let step := blockquoteCheck opt n
            let tail := blockquoteVisit step.1 (rest ++ g :: post)
            (tail.1, step.2 ++ tail.2)
          else blockquoteVisit opt (rest ++ g :: post)) from rfl]
      rw [show blockquoteVisit opt (n :: (rest ++ post)) =
          (if n.type = "blockquote" then
            let step := blockquoteCheck opt n
            let tail := blockquoteVisit step.1 (rest ++ post)
            (tail.1, step.2 ++ tail.2)
          else blockquoteVisit opt (rest ++ post)) from rfl]
      by_cases ht : n.type = "blockquote"
      · rw [if_pos ht, if_pos ht]
        simp only [ih]
      · rw [if_neg ht, if_neg ht]
        exact ih opt
  · intro map pre post g hg
    induction pre generalizing map with
    | nil =>
      simp only [List.nil_append, remarkLintNoDuplicateDefinitionsVisit, hg]
    | cons n rest ih =>
      simp only [List.cons_append, remarkLintNoDuplicateDefinitionsVisit,
        List.append_eq, ih]
  · intro map pre post g hg
    induction pre generalizing map with
    | nil =>
      simp only [List.nil_append, remarkLintNoDuplicateHeadingsVisit, hg]
      split <;> rfl
    | cons n rest ih =>
      simp only [List.cons_append, remarkLintNoDuplicateHeadingsVisit,
        List.append_eq, ih]
  · intro ex pre post g ctx hg
    rw [show pre ++ (g, ctx) :: post = pre ++ ([(g, ctx)] ++ post) from rfl]
    rw [nmblVisit_append, nmblVisit_append, nmblVisit_append]
    have hskip : remarkLintNoMissingBlankLinesVisit ex [(g, ctx)] = [] := by
      cases ctx with
      | none => rfl
      | some ip =>
        simp only [remarkLintNoMissingBlankLinesVisit, pointEnd_noPos hg]
        rfl
    rw [hskip]
    simp
  · intro last pre post g hg
    induction pre generalizing last with
    | nil =>
      simp only [List.nil_append]
      rw [show remarkLintFinalDefinitionVisit last (g :: post) =
          (let step := finalDefinitionStep last g
           let tail := remarkLintFinalDefinitionVisit step.1 post
           (tail.1, step.2 ++ tail.2)) from rfl]
      rw [finalDefStep_noStart last g (pointStart_noPos hg)]
      simp
    | cons n rest ih =>
      rw [show (n :: rest) ++ g :: post = n :: (rest ++ g :: post) from rfl,
        show (n :: rest) ++ post = n :: (rest ++ post) from rfl]
      rw [show remarkLintFinalDefinitionVisit last (n :: (rest ++ g :: post)) =
          (let step := finalDefinitionStep last n
           let tail := remarkLintFinalDefinitionVisit step.1 (rest ++ g :: post)
           (tail.1, step.2 ++ tail.2)) from rfl]
      rw [show remarkLintFinalDefinitionVisit last (n :: (rest ++ post)) =
          (let step := finalDefinitionStep last n
           let tail := remarkLintFinalDefinitionVisit step.1 (rest ++ post)
           (tail.1, step.2 ++ tail.2)) from rfl]
      simp only [ih]
  · exact fun stack ns m hm => inSectionVisit_subjects ns stack m hm

/-- Witness for `positionless_c5`: position-less nodes of each relevant
kind change nothing when inserted into concrete visit sequences, and the
one diagnostic of a concrete in-section run has a non-generated subject. -/
theorem positionless_c5_witness :
    remarkLintNoHeadingPunctuationVisit "!,\\.:;?"
        ([mkHeading 1 "Hello:" (some (linePos 1 9))] ++
          mkHeading 2 "Oops!" none ::
            [mkHeading 2 "World?" (some (linePos 3 10))]) =
      remarkLintNoHeadingPunctuationVisit "!,\\.:;?"
        ([mkHeading 1 "Hello:" (some (linePos 1 9))] ++
          [mkHeading 2 "World?" (some (linePos 3 10))]) ∧
    ruleStyleVisit "***\n\n* * *" "consistent"
        ([mkThematicBreak (some (linePosOff 1 4 0 3))] ++
          mkThematicBreak none ::
            [mkThematicBreak (some (linePosOff 3 6 5 10))]) =
      ruleStyleVisit "***\n\n* * *" "consistent"
        ([mkThematicBreak (some (linePosOff 1 4 0 3))] ++
          [mkThematicBreak (some (linePosOff 3 6 5 10))]) ∧
    blockquoteVisit .consistent
        ([mkBlockquote (some (linePos 1 3))
            [leafNode "paragraph" (some ⟨⟨1, 3, none⟩, ⟨1, 9, none⟩⟩)]] ++
          mkBlockquote none [] ::
            [mkBlockquote (some (linePos 4 3))
              [leafNode "paragraph" (some ⟨⟨4, 5, none⟩, ⟨4, 9, none⟩⟩)]]) =
      blockquoteVisit .consistent
        ([mkBlockquote (some (linePos 1 3))
            [leafNode "paragraph" (some ⟨⟨1, 3, none⟩, ⟨1, 9, none⟩⟩)]] ++
          [mkBlockquote (some (linePos 4 3))
            [leafNode "paragraph" (some ⟨⟨4, 5, none⟩, ⟨4, 9, none⟩⟩)]]) ∧
    remarkLintNoDuplicateDefinitionsVisit []
        ([mkDefinition "x" (some (linePos 1 11))] ++
          mkDefinition "x" none :: [mkDefinition "x" (some (linePos 3 11))]) =
      remarkLintNoDuplicateDefinitionsVisit []
        ([mkDefinition "x" (some (linePos 1 11))] ++
          [mkDefinition "x" (some (linePos 3 11))]) ∧
    remarkLintNoDuplicateHeadingsVisit []
        ([mkHeading 1 "Alpha" (some (linePos 1 9))] ++
          mkHeading 2 "Alpha" none :: [mkHeading 2 "Alpha" (some (linePos 3 9))]) =
      remarkLintNoDuplicateHeadingsVisit []
        ([mkHeading 1 "Alpha" (some (linePos 1 9))] ++
          [mkHeading 2 "Alpha" (some (linePos 3 9))]) ∧
    remarkLintNoMissingBlankLinesVisit false
        ([(leafNode "heading" (some (linePos 1 6)), none)] ++
          (leafNode "paragraph" none,
            some (0, rootNode [leafNode "paragraph" none])) ::
            [(leafNode "paragraph" (some (linePos 2 7)), none)]) =
      remarkLintNoMissingBlankLinesVisit false
        ([(leafNode "heading" (some (linePos 1 6)), none)] ++
          [(leafNode "paragraph" (some (linePos 2 7)), none)]) ∧
    remarkLintFinalDefinitionVisit 0
        ([leafNode "paragraph" (some (linePos 5 9))] ++
          mkDefinition "z" none :: [mkDefinition "x" (some (linePos 1 11))]) =
      remarkLintFinalDefinitionVisit 0
        ([leafNode "paragraph" (some (linePos 5 9))] ++
          [mkDefinition "x" (some (linePos 1 11))]) ∧
    (∃ sub,
      sub ∈ [mkHeading 2 "Alpha" (some (linePos 1 5)),
        mkHeading 2 "Alpha" (some (linePos 3 5))] ∧
      ¬(generated sub = true) ∧
      (⟨inSectionReason ++ " (1:1)", Place.span (linePos 3 5)⟩ : VMessage).place =
        nodePlace sub) := by
  refine ⟨?_, ?_, ?_, ?_, ?_, ?_, ?_, ?_⟩
  · exact positionless_c5.1 _ _ _ _ (by decide)
  · exact positionless_c5.2.1 _ _ _ _ _ (by decide)
  · exact positionless_c5.2.2.1 _ _ _ _ (by decide)
  · exact positionless_c5.2.2.2.1 _ _ _ _ (by decide)
  · exact positionless_c5.2.2.2.2.1 _ _ _ _ (by decide)
  · exact positionless_c5.2.2.2.2.2.1 _ _ _ _ _ (by decide)
  · exact positionless_c5.2.2.2.2.2.2.1 _ _ _ _ (by decide)
  · exact positionless_c5.2.2.2.2.2.2.2 []
      [mkHeading 2 "Alpha" (some (linePos 1 5)),
        mkHeading 2 "Alpha" (some (linePos 3 5))]
      ⟨inSectionReason ++ " (1:1)", Place.span (linePos 3 5)⟩ (by decide)

/-- A stringified point is never the empty string. -/
theorem stringifyPoint_ne_empty (p : Point) : stringifyPoint p ≠ "" := by
  unfold stringifyPoint
  intro h
  have hl : (toString p.line ++ ":" ++ toString p.column).length = ("" : String).length :=
    congrArg String.length h
  rw [String.length_append, String.length_append] at hl
  simp at hl
  exact absurd hl.1.2 (by decide)

/-- Lookup distributes over concatenation of map entry lists. -/
theorem mapLookup_append (l1 l2 : List (String × String)) (k : String) :
    mapLookup (l1 ++ l2) k =
      match mapLookup l1 k with
      | some v => some v
      | none => mapLookup l2 k := by
  induction l1 with
  | nil => simp [mapLookup]
  | cons e rest ih =>
    by_cases he : e.1 = k
    · simp [mapLookup, he]
    · simp [mapLookup, he, ih]

/-- Lookup in the map built from processed observations finds the most
recent occurrence of the key. -/
theorem mapLookup_dupMapOf (pre : List (String × Point × Node)) (k : String) :
    mapLookup (dupMapOf pre) k =
      (findLastKey pre k).map (fun ob => stringifyPoint ob.2.1) := by
  induction pre with
  | nil => rfl
  | cons ob rest ih =>
    have hsplit : dupMapOf (ob :: rest) =
        dupMapOf rest ++ [(ob.1, stringifyPoint ob.2.1)] := by
      simp [dupMapOf]
    rw [hsplit, mapLookup_append, ih]
    cases hfl : findLastKey rest k with
    | some r => simp [findLastKey, hfl]
    | none =>
      by_cases he : ob.1 = k
      · simp [findLastKey, hfl, mapLookup, he]
      · simp [findLastKey, hfl, mapLookup, he]

/-- Processing one more observation prepends its entry to the map. -/
theorem dupMapOf_append_single (pre : List (String × Point × Node))
    (ob : String × Point × Node) :
    dupMapOf (pre ++ [ob]) = (ob.1, stringifyPoint ob.2.1) :: dupMapOf pre := by
  simp [dupMapOf]

/-- Traversal of `no-duplicate-definitions` started on the map of
already-processed observations produces exactly the spec-side duplicate
messages: one per observation whose identifier has occurred before, citing
the most recent prior occurrence. -/
theorem dupDefsVisit_spec (ns : List Node) :
    ∀ pre : List (String × Point × Node),
      remarkLintNoDuplicateDefinitionsVisit (dupMapOf pre) ns =
        dupSpecGo mkDefDupMsg pre (ns.filterMap defObs) := by
  induction ns with
  | nil => intro pre; rfl
  | cons n rest ih =>
    intro pre
    cases hpos : positionOf n with
    | none =>
      cases hps : pointStart n with
      | none =>
        have hobs : defObs n = none := by
          unfold defObs
          rw [hpos, hps]
        simp only [remarkLintNoDuplicateDefinitionsVisit, List.filterMap_cons,
          hobs, hpos, hps]
        exact ih pre
      | some start =>
        have hobs : defObs n = none := by
          unfold defObs
          rw [hpos, hps]
        simp only [remarkLintNoDuplicateDefinitionsVisit, List.filterMap_cons,
          hobs, hpos, hps]
        exact ih pre
    | some place =>
      cases hps : pointStart n with
      | none =>
        have hobs : defObs n = none := by
          unfold defObs
          rw [hpos, hps]
        simp only [remarkLintNoDuplicateDefinitionsVisit, List.filterMap_cons,
          hobs, hpos, hps]
        exact ih pre
      | some start =>
        by_cases htype : n.type = "definition" ∨ n.type = "footnoteDefinition"
        · have hobs : defObs n = some (n.identifier, start, n) := by
            unfold defObs
            rw [hpos, hps]
            simp [htype]
          simp only [remarkLintNoDuplicateDefinitionsVisit, hpos, hps, if_pos htype]
          rw [← dupMapOf_append_single pre (n.identifier, start, n)]
          rw [ih (pre ++ [(n.identifier, start, n)])]
          simp only [List.filterMap_cons, hobs, dupSpecGo]
          rw [mapLookup_dupMapOf]
          cases hfl : findLastKey pre n.identifier with
          | none => simp
          | some prev =>
            have hne := stringifyPoint_ne_empty prev.2.1
            simp [hne, mkDefDupMsg, nodePlace, hpos]
        · have hobs : defObs n = none := by
            unfold defObs
            rw [hpos, hps]
            simp [htype]
          simp only [remarkLintNoDuplicateDefinitionsVisit, List.filterMap_cons,
            hobs, hpos, hps, if_neg htype]
          exact ih pre

/-- Traversal of `no-duplicate-headings` started on the map of
already-processed observations produces exactly the spec-side duplicate
messages over the upper-cased flattened heading texts. -/
theorem dupHeadingsVisit_spec (ns : List Node) :
    ∀ pre : List (String × Point × Node),
      remarkLintNoDuplicateHeadingsVisit (dupMapOf pre) ns =
        dupSpecGo mkHeadingDupMsg pre (ns.filterMap headingObs) := by
  induction ns with
  | nil => intro pre; rfl
  | cons n rest ih =>
    intro pre
    by_cases ht : n.type = "heading"
    · cases hpos : positionOf n with
      | none =>
        cases hps : pointStart n with
        | none =>
          have hobs : headingObs n = none := by
            unfold headingObs
            rw [if_pos ht, hpos, hps]
          simp only [remarkLintNoDuplicateHeadingsVisit, List.filterMap_cons,
            hobs, hpos, hps, if_pos ht]
          exact ih pre
        | some start =>
          have hobs : headingObs n = none := by
            unfold headingObs
            rw [if_pos ht, hpos, hps]
          simp only [remarkLintNoDuplicateHeadingsVisit, List.filterMap_cons,
            hobs, hpos, hps, if_pos ht]
          exact ih pre
      | some place =>
        cases hps : pointStart n with
        | none =>
          have hobs : headingObs n = none := by
            unfold headingObs
            rw [if_pos ht, hpos, hps]
          simp only [remarkLintNoDuplicateHeadingsVisit, List.filterMap_cons,
            hobs, hpos, hps, if_pos ht]
          exact ih pre
        | some start =>
          have hobs : headingObs n = some (strToUpper (mdastToString n), start, n) := by
            unfold headingObs
            rw [if_pos ht, hpos, hps]
          simp only [remarkLintNoDuplicateHeadingsVisit, hpos, hps, if_pos ht]
          rw [← dupMapOf_append_single pre (strToUpper (mdastToString n), start, n)]
          rw [ih (pre ++ [(strToUpper (mdastToString n), start, n)])]
          simp only [List.filterMap_cons, hobs, dupSpecGo]
          rw [mapLookup_dupMapOf]
          cases hfl : findLastKey pre (strToUpper (mdastToString n)) with
          | none => simp
          | some prev =>
            have hne := stringifyPoint_ne_empty prev.2.1
            simp [hne, mkHeadingDupMsg]
    · have hobs : headingObs n = none := by
        unfold headingObs
        rw [if_neg ht]
      simp only [remarkLintNoDuplicateHeadingsVisit, List.filterMap_cons,
        hobs, if_neg ht]
      exact ih pre

/-- C2 (amended): for both duplicate-by-key rules, every qualifying node
whose normalized key has occurred before yields exactly one diagnostic,
and its message cites the stringified position of the most recent prior
occurrence of that key (which is the first occurrence exactly when the key
has occurred only once before). -/
theorem dupByKey_c2 :
    (∀ tree : Node,
      remarkLintNoDuplicateDefinitions tree =
        dupSpecGo mkDefDupMsg [] ((preorderN tree).filterMap defObs)) ∧
    (∀ tree : Node,
      remarkLintNoDuplicateHeadings tree =
        dupSpecGo mkHeadingDupMsg [] ((preorderN tree).filterMap headingObs)) :=
  ⟨fun tree => dupDefsVisit_spec (preorderN tree) [],
    fun tree => dupHeadingsVisit_spec (preorderN tree) []⟩

/-- Counterexample to C2 as stated: with three same-identifier definitions
at lines 1, 2 and 3, the pair (first, third) is two qualifying nodes with
the same key in document order, and one diagnostic is indeed produced for
the third node — but its message cites the position `2:1` of the second
occurrence, not the position `1:1` of the first of the pair. -/
theorem dupByKey_c2_counterexample :
    remarkLintNoDuplicateDefinitions
        (rootNode [mkDefinition "x" (some (linePos 1 11)),
          mkDefinition "x" (some (linePos 2 11)),
          mkDefinition "x" (some (linePos 3 11))]) =
      [⟨"Do not use definitions with the same identifier (1:1)", .span (linePos 2 11)⟩,
        ⟨"Do not use definitions with the same identifier (2:1)", .span (linePos 3 11)⟩] ∧
    (∀ m ∈ remarkLintNoDuplicateDefinitions
        (rootNode [mkDefinition "x" (some (linePos 1 11)),
          mkDefinition "x" (some (linePos 2 11)),
          mkDefinition "x" (some (linePos 3 11))]),
      m.place = .span (linePos 3 11) →
        m.reason ≠ "Do not use definitions with the same identifier (1:1)") := by
  constructor
  · decide
  · decide

/-- Flattened text of the helper heading constructor. -/
theorem mdastToString_mkHeading (d : Nat) (t : String) (p : Option Position) :
    mdastToString (mkHeading d t p) = t := by
  simp [mkHeading, mdastToString, mdastToStringList, nl]



/-- C3: the section scoping of `no-duplicate-headings-in-section`.  First,
processing a heading truncates the scope stack to its depth, so every
strictly deeper scope is discarded whenever a heading of
shallower-or-equal depth than the enclosing section is encountered.
Second, a depth-3 heading with text `b` under two different depth-2
sections yields no diagnostic at the second occurrence.  Third, two
depth-3 headings with the same text `b` under one depth-2 section yield
exactly one diagnostic, at the second one, citing the first one's
position. -/
theorem inSection_c3 :
    (∀ (stack : List (List (String × Node))) (i : Nat)
        (scope : List (String × Node)) (depth : Nat),
      ((stackSet stack i scope).take depth).length ≤ depth) ∧
    (∀ a b c : String,
      ∀ m ∈ remarkLintNoDuplicateHeadingsInSection
          (rootNode [mkHeading 2 a (some (linePos 1 9)),
            mkHeading 3 b (some (linePos 3 10)),
            mkHeading 2 c (some (linePos 5 11)),
            mkHeading 3 b (some (linePos 7 10))]),
        m.place ≠ .span (linePos 7 10)) ∧
    (∀ a b : String,
      remarkLintNoDuplicateHeadingsInSection
          (rootNode [mkHeading 2 a (some (linePos 1 9)),
            mkHeading 3 b (some (linePos 3 10)),
            mkHeading 3 b (some (linePos 5 11))]) =
        [⟨inSectionReason ++ " (3:1)", .span (linePos 5 11)⟩]) := by
  refine ⟨?_, ?_, ?_⟩
  · intro stack i scope depth
    exact List.length_take_le depth (stackSet stack i scope)
  · intro a b c m hm
    unfold remarkLintNoDuplicateHeadingsInSection at hm
    rw [show preorderN (rootNode [mkHeading 2 a (some (linePos 1 9)),
        mkHeading 3 b (some (linePos 3 10)),
        mkHeading 2 c (some (linePos 5 11)),
        mkHeading 3 b (some (linePos 7 10))]) =
      [rootNode [mkHeading 2 a (some (linePos 1 9)),
        mkHeading 3 b (some (linePos 3 10)),
        mkHeading 2 c (some (linePos 5 11)),
        mkHeading 3 b (some (linePos 7 10))],
       mkHeading 2 a (some (linePos 1 9)),
       Node.mk { type := "text", value := some a } .nil,
       mkHeading 3 b (some (linePos 3 10)),
       Node.mk { type := "text", value := some b } .nil,
       mkHeading 2 c (some (linePos 5 11)),
       Node.mk { type := "text", value := some c } .nil,
       mkHeading 3 b (some (linePos 7 10)),
       Node.mk { type := "text", value := some b } .nil] from rfl] at hm
    simp only [inSectionVisit_skip, inSectionVisit_heading, inSectionVisit_nil,
      mkHeading, rootNode, nl, Node.type, Node.data, Node.depth,
      String.reduceEq, not_false_eq_true] at hm
    simp only [mdastToString, mdastToStringList, stackGet, stackSet, scopeLookup,
      Node.position, generated, positionOf, pointStart, pointEnd, resolvePoint,
      nodePlace, linePos, List.take, List.set, List.append_nil, List.nil_append,
      List.cons_append, List.get?, List.replicate, Option.getD,
      String.append_empty] at hm
    by_cases hac : strToUpper a = strToUpper c
    · simp [hac, pointStart, pointEnd, positionOf, resolvePoint, nodePlace,
        Node.position, Node.data, generated, linePos, stringifyPosition,
        stringifyPoint] at hm
      simp [hm, linePos]
    · simp [hac] at hm
  · intro a b
    unfold remarkLintNoDuplicateHeadingsInSection
    rw [show preorderN (rootNode [mkHeading 2 a (some (linePos 1 9)),
        mkHeading 3 b (some (linePos 3 10)),
        mkHeading 3 b (some (linePos 5 11))]) =
      [rootNode [mkHeading 2 a (some (linePos 1 9)),
        mkHeading 3 b (some (linePos 3 10)),
        mkHeading 3 b (some (linePos 5 11))],
       mkHeading 2 a (some (linePos 1 9)),
       Node.mk { type := "text", value := some a } .nil,
       mkHeading 3 b (some (linePos 3 10)),
       Node.mk { type := "text", value := some b } .nil,
       mkHeading 3 b (some (linePos 5 11)),
       Node.mk { type := "text", value := some b } .nil] from rfl]
    simp only [inSectionVisit_skip, inSectionVisit_heading, inSectionVisit_nil,
      mkHeading, rootNode, nl, Node.type, Node.data, Node.depth,
      String.reduceEq, not_false_eq_true]
    simp only [mdastToString, mdastToStringList, stackGet, stackSet, scopeLookup,
      Node.position, generated, positionOf, pointStart, pointEnd, resolvePoint,
      nodePlace, linePos, List.take, List.set, List.append_nil, List.nil_append,
      List.cons_append, List.get?, List.replicate, Option.getD,
      String.append_empty]
    simp [stringifyPosition, stringifyPoint, inSectionReason, pointStart,
      pointEnd, positionOf, resolvePoint, nodePlace, Node.position, Node.data,
      generated, linePos]
    try decide

/-- Witness for `inSection_c3` at concrete inputs: a concrete stack update,
the second depth-3 `Bravo` under a second `Alpha` section is not the
subject of the diagnostic that run produces, and two `Golf` headings under
one `Foxtrot` section produce exactly one diagnostic. -/
theorem inSection_c3_witness :
    ((stackSet [] 1 [("B", leafNode "x" none)]).take 2).length ≤ 2 ∧
    (⟨inSectionReason ++ " (1:1)", Place.span (linePos 5 11)⟩ : VMessage).place ≠
      Place.span (linePos 7 10) ∧
    remarkLintNoDuplicateHeadingsInSection
        (rootNode [mkHeading 2 "Foxtrot" (some (linePos 1 9)),
          mkHeading 3 "Golf" (some (linePos 3 10)),
          mkHeading 3 "Golf" (some (linePos 5 11))]) =
      [⟨inSectionReason ++ " (3:1)", .span (linePos 5 11)⟩] :=
  ⟨inSection_c3.1 [] 1 [("B", leafNode "x" none)] 2,
    inSection_c3.2.1 "Alpha" "Bravo" "Alpha"
      ⟨inSectionReason ++ " (1:1)", Place.span (linePos 5 11)⟩ (by decide),
    inSection_c3.2.2 "Foxtrot" "Golf"⟩

/-- A point with positive coordinates resolves to itself. -/
theorem resolvePoint_pos (p : Point) (h1 : 0 < p.line) (h2 : 0 < p.column) :
    resolvePoint p = some p := if_pos ⟨h1, h2⟩

/-- Start point of a positioned leaf node. -/
theorem pointStart_leafNode (t : String) (p : Position) (h : validPos p) :
    pointStart (leafNode t (some p)) = some p.start := by
  unfold pointStart leafNode Node.position Node.data
  exact resolvePoint_pos p.start h.1 h.2.1

/-- End point of a positioned leaf node. -/
theorem pointEnd_leafNode (t : String) (p : Position) (h : validPos p) :
    pointEnd (leafNode t (some p)) = some p.stop := by
  unfold pointEnd leafNode Node.position Node.data
  exact resolvePoint_pos p.stop h.2.2.1 h.2.2.2

/-- Resolved range of a positioned leaf node. -/
theorem positionOf_leafNode (t : String) (p : Position) (h : validPos p) :
    positionOf (leafNode t (some p)) = some p := by
  unfold positionOf
  rw [pointStart_leafNode t p h, pointEnd_leafNode t p h]

/-- Type tag of a leaf node. -/
theorem type_leafNode (t : String) (p : Option Position) : (leafNode t p).type = t := rfl

/-- C6: `no-missing-blank-lines` on two adjacent positioned siblings whose
second is a block type.  With default configuration a diagnostic is placed
at the second sibling exactly when its start line is the first sibling's
end line plus one — any other gap yields nothing.  When the parent is a
`listItem`, `exceptTightLists := true` suppresses the check while the
default still applies it. -/
theorem noMissingBlankLines_c6 :
    (∀ (ta tb : String) (pa pb : Position), validPos pa → validPos pb →
      blockTypes.contains tb = true →
      remarkLintNoMissingBlankLines
          (rootNode [leafNode ta (some pa), leafNode tb (some pb)]) none =
        (if pb.start.line = pa.stop.line + 1 then
          [⟨"Missing blank line before block node", .span pb⟩]
        else [])) ∧
    (∀ (ta tb : String) (pa pb : Position), validPos pa → validPos pb →
      blockTypes.contains tb = true →
      remarkLintNoMissingBlankLines
          (rootNode [Node.mk { type := "listItem" }
            (nl [leafNode ta (some pa), leafNode tb (some pb)])])
          (some { exceptTightLists := some true }) = [] ∧
      remarkLintNoMissingBlankLines
          (rootNode [Node.mk { type := "listItem" }
            (nl [leafNode ta (some pa), leafNode tb (some pb)])])
          none =
        (if pb.start.line = pa.stop.line + 1 then
          [⟨"Missing blank line before block node", .span pb⟩]
        else [])) := by
  constructor
  · intro ta tb pa pb hpa hpb htb
    have hmem : tb ∈ blockTypes := by simpa using htb
    show remarkLintNoMissingBlankLinesVisit false
        [(rootNode [leafNode ta (some pa), leafNode tb (some pb)], none),
         (leafNode ta (some pa),
           some (0, rootNode [leafNode ta (some pa), leafNode tb (some pb)])),
         (leafNode tb (some pb),
           some (1, rootNode [leafNode ta (some pa), leafNode tb (some pb)]))] = _
    simp only [remarkLintNoMissingBlankLinesVisit,
      pointEnd_leafNode ta pa hpa, pointEnd_leafNode tb pb hpb,
      pointStart_leafNode tb pb hpb, positionOf_leafNode tb pb hpb,
      rootNode, Node.type, Node.data, Node.children, NodeList.get?,
      nl, nodePlace, htb]
    simp [positionOf_leafNode tb pb hpb, nodePlace, type_leafNode, hmem,
      pointEnd, Node.position, Node.data, leafNode]
  · intro ta tb pa pb hpa hpb htb
    have hmem : tb ∈ blockTypes := by simpa using htb
    constructor
    · show remarkLintNoMissingBlankLinesVisit true
          [(rootNode [Node.mk { type := "listItem" }
              (nl [leafNode ta (some pa), leafNode tb (some pb)])], none),
           (Node.mk { type := "listItem" }
              (nl [leafNode ta (some pa), leafNode tb (some pb)]),
             some (0, rootNode [Node.mk { type := "listItem" }
               (nl [leafNode ta (some pa), leafNode tb (some pb)])])),
           (leafNode ta (some pa),
             some (0, Node.mk { type := "listItem" }
               (nl [leafNode ta (some pa), leafNode tb (some pb)]))),
           (leafNode tb (some pb),
             some (1, Node.mk { type := "listItem" }
               (nl [leafNode ta (some pa), leafNode tb (some pb)])))] = _
      simp only [remarkLintNoMissingBlankLinesVisit,
        pointEnd_leafNode ta pa hpa, pointEnd_leafNode tb pb hpb,
        pointStart_leafNode tb pb hpb,
        rootNode, Node.type, Node.data, Node.children, NodeList.get?,
        nl, htb]
      simp [pointEnd, Node.position, Node.data]
    · show remarkLintNoMissingBlankLinesVisit false
          [(rootNode [Node.mk { type := "listItem" }
              (nl [leafNode ta (some pa), leafNode tb (some pb)])], none),
           (Node.mk { type := "listItem" }
              (nl [leafNode ta (some pa), leafNode tb (some pb)]),
             some (0, rootNode [Node.mk { type := "listItem" }
               (nl [leafNode ta (some pa), leafNode tb (some pb)])])),
           (leafNode ta (some pa),
             some (0, Node.mk { type := "listItem" }
               (nl [leafNode ta (some pa), leafNode tb (some pb)]))),
           (leafNode tb (some pb),
             some (1, Node.mk { type := "listItem" }
               (nl [leafNode ta (some pa), leafNode tb (some pb)])))] = _
      simp only [remarkLintNoMissingBlankLinesVisit,
        pointEnd_leafNode ta pa hpa, pointEnd_leafNode tb pb hpb,
        pointStart_leafNode tb pb hpb,
        rootNode, Node.type, Node.data, Node.children, NodeList.get?,
        nl, htb]
      have hposB : positionOf (Node.mk { type := tb, position := some pb } .nil) =
          some pb := by
        have h := positionOf_leafNode tb pb hpb
        simpa [leafNode] using h
      simp [positionOf_leafNode tb pb hpb, nodePlace, type_leafNode, hmem,
        pointEnd, Node.position, Node.data, leafNode, hposB]

/-- Witness for `noMissingBlankLines_c6`: a one-line gap flags, a two-line
gap does not, and tight list items are exempt only when configured. -/
theorem noMissingBlankLines_c6_witness :
    remarkLintNoMissingBlankLines
        (rootNode [leafNode "heading" (some (linePos 1 6)),
          leafNode "paragraph" (some (linePos 2 7))]) none =
      [⟨"Missing blank line before block node", .span (linePos 2 7)⟩] ∧
    remarkLintNoMissingBlankLines
        (rootNode [leafNode "heading" (some (linePos 1 6)),
          leafNode "paragraph" (some (linePos 3 7))]) none = [] ∧
    remarkLintNoMissingBlankLines
        (rootNode [Node.mk { type := "listItem" }
          (nl [leafNode "paragraph" (some (linePos 4 10)),
            leafNode "list" (some (linePos 5 8))])])
        (some { exceptTightLists := some true }) = [] ∧
    remarkLintNoMissingBlankLines
        (rootNode [Node.mk { type := "listItem" }
          (nl [leafNode "paragraph" (some (linePos 4 10)),
            leafNode "list" (some (linePos 5 8))])]) none =
      [⟨"Missing blank line before block node", .span (linePos 5 8)⟩] := by
  refine ⟨?_, ?_, ?_, ?_⟩
  · rw [noMissingBlankLines_c6.1 "heading" "paragraph" (linePos 1 6) (linePos 2 7)
      (by decide) (by decide) (by decide)]
    decide
  · rw [noMissingBlankLines_c6.1 "heading" "paragraph" (linePos 1 6) (linePos 3 7)
      (by decide) (by decide) (by decide)]
    decide
  · exact (noMissingBlankLines_c6.2 "paragraph" "list" (linePos 4 10) (linePos 5 8)
      (by decide) (by decide) (by decide)).1
  · rw [(noMissingBlankLines_c6.2 "paragraph" "list" (linePos 4 10) (linePos 5 8)
      (by decide) (by decide) (by decide)).2]
    decide

/-- A resolved point has positive coordinates. -/
theorem resolvePoint_some {p q : Point} (h : resolvePoint p = some q) :
    0 < q.line ∧ 0 < q.column := by
  unfold resolvePoint at h
  split at h
  · cases h
    assumption
  · cases h

/-- A resolved start point has a positive line. -/
theorem pointStart_pos_line {n : Node} {sp : Point} (h : pointStart n = some sp) :
    0 < sp.line := by
  unfold pointStart at h
  split at h
  · exact (resolvePoint_some h).1
  · cases h

/-- Visitor body of `final-definition` with no remembered line on a
non-content node: nothing changes. -/
theorem finalDefStep_zero (n : Node) (h : ¬isContentNode n) :
    finalDefinitionStep 0 n = (0, []) := by
  unfold finalDefinitionStep
  split
  · rfl
  next start hps =>
    split
    · rfl
    next h1 =>
      split
      next h2 => rw [if_neg (by simp)]
      next h2 =>
        rw [if_pos rfl]
        exfalso
        apply h
        exact ⟨by rw [hps]; rfl, fun hr => h1 (Or.inl hr), h2,
          fun hh => h1 (Or.inr hh)⟩

/-- Visitor body of `final-definition` with no remembered line on a content
node: its start line is remembered, no diagnostic. -/
theorem finalDefStep_content (n : Node) (sp : Point) (h : isContentNode n)
    (hps : pointStart n = some sp) :
    finalDefinitionStep 0 n = (sp.line, []) := by
  unfold finalDefinitionStep
  split
  next hnone => rw [hnone] at hps; cases hps
  next start hstart =>
    have hss : start = sp := by
      rw [hstart] at hps
      cases hps
      rfl
    subst hss
    rw [if_neg (fun hc => by
      rcases hc with hr | hh
      · exact h.2.1 hr
      · exact h.2.2.2 hh)]
    rw [if_neg h.2.2.1, if_pos rfl]

/-- Visitor body of `final-definition` once a line is remembered: the line
never changes and the node yields exactly the spec-side message. -/
theorem finalDefStep_nonzero (n : Node) (last : Nat) (hl : last ≠ 0) :
    finalDefinitionStep last n = (last, (finalDefSpecMsg last n).toList) := by
  unfold finalDefinitionStep
  split
  next hnone =>
    have hmsg : finalDefSpecMsg last n = none := by
      unfold finalDefSpecMsg
      rw [hnone]
    rw [hmsg]
    rfl
  next start hstart =>
    split
    next h1 =>
      have hnd : ¬n.type = "definition" := by
        rcases h1 with hr | hh
        · rw [hr]
          decide
        · rw [hh.1]
          decide
      have hmsg : finalDefSpecMsg last n = none := by
        unfold finalDefSpecMsg
        rw [hstart]
        exact if_neg (fun hc => hnd hc.1)
      rw [hmsg]
      rfl
    next h1 =>
      by_cases h2 : n.type = "definition"
      · by_cases h3 : start.line < last
        · have hmsg : finalDefSpecMsg last n =
              some ⟨"Move definitions to the end of the file (after the node at line `" ++
                toString last ++ "`)", nodePlace n⟩ := by
            unfold finalDefSpecMsg
            rw [hstart]
            exact if_pos ⟨h2, h3⟩
          rw [hmsg, if_pos h2, if_pos ⟨hl, h3⟩]
          rfl
        · have hmsg : finalDefSpecMsg last n = none := by
            unfold finalDefSpecMsg
            rw [hstart]
            exact if_neg (fun hc => h3 hc.2)
          rw [hmsg, if_pos h2, if_neg (fun hc => h3 hc.2)]
          rfl
      · have hmsg : finalDefSpecMsg last n = none := by
          unfold finalDefSpecMsg
          rw [hstart]
          exact if_neg (fun hc => h2 hc.1)
        rw [hmsg, if_neg h2]
        simp [hl]

/-- Traversal of `final-definition` once a line is remembered: the
diagnostics are exactly the spec-side messages of the remaining nodes. -/
theorem finalDefVisit_nonzero (ns : List Node) (last : Nat) (hl : last ≠ 0) :
    remarkLintFinalDefinitionVisit last ns =
      (last, ns.filterMap (finalDefSpecMsg last)) := by
  induction ns with
  | nil => rfl
  | cons n rest ih =>
    rw [show remarkLintFinalDefinitionVisit last (n :: rest) =
        (let step := finalDefinitionStep last n
         let tail := remarkLintFinalDefinitionVisit step.1 rest
         (tail.1, step.2 ++ tail.2)) from rfl]
    rw [finalDefStep_nonzero n last hl]
    simp only [List.filterMap_cons]
    cases hmsg : finalDefSpecMsg last n with
    | none => simp [ih]
    | some msg => simp [ih]

/-- Traversal of `final-definition` over non-content nodes with no
remembered line: nothing is remembered and nothing is reported. -/
theorem finalDefVisit_noContent (ns : List Node)
    (h : ∀ n ∈ ns, ¬isContentNode n) :
    remarkLintFinalDefinitionVisit 0 ns = (0, []) := by
  induction ns with
  | nil => rfl
  | cons n rest ih =>
    rw [show remarkLintFinalDefinitionVisit 0 (n :: rest) =
        (let step := finalDefinitionStep 0 n
         let tail := remarkLintFinalDefinitionVisit step.1 rest
         (tail.1, step.2 ++ tail.2)) from rfl]
    rw [finalDefStep_zero n (h n (by simp))]
    simp only []
    rw [ih (fun m hm => h m (by simp [hm]))]
    rfl

/-- C7: `final-definition` remembers the start line of the first content
node of its visit sequence (a positioned node that is not the root, not a
definition and not an HTML comment), and then flags exactly the
definitions whose start line lies before that remembered line, citing it;
when the sequence has no content node at all, nothing is reported. -/
theorem finalDefinition_c7 :
    (∀ (tree : Node) (pre post : List Node) (fc : Node) (sp : Point),
      revOrderN tree = pre ++ fc :: post →
      (∀ n ∈ pre, ¬isContentNode n) →
      isContentNode fc →
      pointStart fc = some sp →
      remarkLintFinalDefinition tree = post.filterMap (finalDefSpecMsg sp.line)) ∧
    (∀ tree : Node, (∀ n ∈ revOrderN tree, ¬isContentNode n) →
      remarkLintFinalDefinition tree = []) := by
  constructor
  · intro tree pre post fc sp hrev hpre hfc hsp
    unfold remarkLintFinalDefinition
    rw [hrev]
    have happ : ∀ (xs ys : List Node) (last : Nat),
        remarkLintFinalDefinitionVisit last (xs ++ ys) =
          ((remarkLintFinalDefinitionVisit
              (remarkLintFinalDefinitionVisit last xs).1 ys).1,
            (remarkLintFinalDefinitionVisit last xs).2 ++
              (remarkLintFinalDefinitionVisit
                (remarkLintFinalDefinitionVisit last xs).1 ys).2) := by
      intro xs
      induction xs with
      | nil =>
        intro ys last
        simp [remarkLintFinalDefinitionVisit]
      | cons x rest ih =>
        intro ys last
        rw [show (x :: rest) ++ ys = x :: (rest ++ ys) from rfl]
        rw [show remarkLintFinalDefinitionVisit last (x :: (rest ++ ys)) =
            (let step := finalDefinitionStep last x
             let tail := remarkLintFinalDefinitionVisit step.1 (rest ++ ys)
             (tail.1, step.2 ++ tail.2)) from rfl]
        rw [show remarkLintFinalDefinitionVisit last (x :: rest) =
            (let step := finalDefinitionStep last x
             let tail := remarkLintFinalDefinitionVisit step.1 rest
             (tail.1, step.2 ++ tail.2)) from rfl]
        simp only [ih]
        simp
    rw [happ]
    rw [finalDefVisit_noContent pre hpre]
    rw [show remarkLintFinalDefinitionVisit (0, ([] : List VMessage)).1 (fc :: post) =
        (let step := finalDefinitionStep 0 fc
         let tail := remarkLintFinalDefinitionVisit step.1 post
         (tail.1, step.2 ++ tail.2)) from rfl]
    rw [finalDefStep_content fc sp hfc hsp]
    have hline : sp.line ≠ 0 := Nat.pos_iff_ne_zero.mp (pointStart_pos_line hsp)
    simp only []
    rw [finalDefVisit_nonzero post sp.line hline]
    simp
  · intro tree hall
    unfold remarkLintFinalDefinition
    rw [finalDefVisit_noContent (revOrderN tree) hall]

/-- Witness for `finalDefinition_c7`: in a document of a definition at line
1, a paragraph at line 3 and a definition at line 5, the reverse-mode
visit sequence is root, the line-5 definition, the paragraph (the first
content node, line 3 remembered), then the line-1 definition, which is the
only one flagged; and a document with only definitions reports nothing. -/
theorem finalDefinition_c7_witness :
    remarkLintFinalDefinition
        (rootNode [mkDefinition "x" (some (linePos 1 11)),
          leafNode "paragraph" (some (linePos 3 9)),
          mkDefinition "y" (some (linePos 5 11))]) =
      [⟨"Move definitions to the end of the file (after the node at line `3`)",
        .span (linePos 1 11)⟩] ∧
    remarkLintFinalDefinition
        (rootNode [mkDefinition "x" (some (linePos 1 11))]) = [] := by
  constructor
  · rw [finalDefinition_c7.1
      (rootNode [mkDefinition "x" (some (linePos 1 11)),
        leafNode "paragraph" (some (linePos 3 9)),
        mkDefinition "y" (some (linePos 5 11))])
      [rootNode [mkDefinition "x" (some (linePos 1 11)),
        leafNode "paragraph" (some (linePos 3 9)),
        mkDefinition "y" (some (linePos 5 11))],
       mkDefinition "y" (some (linePos 5 11))]
      [mkDefinition "x" (some (linePos 1 11))]
      (leafNode "paragraph" (some (linePos 3 9)))
      ⟨3, 1, none⟩ rfl (by decide) (by decide) (by decide)]
    decide
  · exact finalDefinition_c7.2
      (rootNode [mkDefinition "x" (some (linePos 1 11))]) (by decide)
